import Mathlib

/-!
Verification of the wavelet-tree core of `terminus-store`.

The development shallowly embeds `src/structure/wavelettree.rs` and
`src/structure/convert.rs`.  Sequences of bits are `List Bool`, symbol
sequences are `List ℕ`, and every `u64`/`usize` value is a `ℕ` with an
explicit `% 2^64` at the spots where 64-bit overflow can actually occur
(the `pow` calls and the subtractions that may underflow).  Rust `panic`
and `unwrap` failures are modelled by `Option`/`Except` results.

The rank/select index (`BitIndex`, file `bitindex.rs`) is not among the
given sources; its operations are modelled from the specification's
description (section 4.3) and are marked `Modelled from the spec:` below.
-/

/-- Size of the `u64` value space; `u64` arithmetic is `ℕ` arithmetic
modulo this constant. -/
def u64_size : ℕ := 2 ^ 64

/-- Models `2_u64.pow(k)` (and `2_usize.pow(k)` on the 64-bit targets the
store runs on).  With the release profile an overflowing `pow` wraps, so
the result is `2^k % 2^64`; under overflow checks the same call aborts —
either way `2^64` itself is never produced. -/
def pow2u64 (k : ℕ) : ℕ := 2 ^ k % u64_size

/-- Models `x - y` on `u64`: wrapping subtraction. -/
def u64sub (x y : ℕ) : ℕ := (u64_size + x - y % u64_size) % u64_size

/-- Modelled from the spec: `BitIndex::rank1(i)` is the number of 1-bits in
`B[0..i)` (`bitindex.rs` is not among the given sources). -/
def rank1 (B : List Bool) (i : ℕ) : ℕ := (B.take i).countP (fun b => b)

/-- Modelled from the spec: `rank0(i) = i − rank1(i)`. -/
def rank0 (B : List Bool) (i : ℕ) : ℕ := i - rank1 B i

/-- Modelled from the spec: range variant `rank1(a,b) = rank1(b) − rank1(a)`. -/
def rank1_from_range (B : List Bool) (a b : ℕ) : ℕ := rank1 B b - rank1 B a

/-- Modelled from the spec: range variant `rank0(a,b) = rank0(b) − rank0(a)`. -/
def rank0_from_range (B : List Bool) (a b : ℕ) : ℕ := rank0 B b - rank0 B a

/-- Position of the `r`-th (1-indexed) occurrence of the bit value `v`;
absent for `r = 0` and when fewer than `r` such bits exist.  Shared body of
`select1`/`select0`. -/
def select_bit (v : Bool) : List Bool → ℕ → Option ℕ
  | _, 0 => none
  | [], _ + 1 => none
  | b :: rest, r + 1 =>
    if b = v then
      if r = 0 then some 0 else (select_bit v rest r).map (· + 1)
    else (select_bit v rest (r + 1)).map (· + 1)

/-- Modelled from the spec: `select1(r)` returns the position of the `r`-th
1-bit (1-indexed); absent if `r = 0` or `r` exceeds the count. -/
def select1 (B : List Bool) (r : ℕ) : Option ℕ := select_bit true B r

/-- Modelled from the spec: `select0(r)`, the 0-bit analogue of `select1`. -/
def select0 (B : List Bool) (r : ℕ) : Option ℕ := select_bit false B r

/-- Modelled from the spec: `select1_from_range(r, a, b)` adds `rank1(a)` to
`r` before the global select and requires the result to be `< b`; absent
otherwise, and absent for `r = 0`. -/
def select1_from_range (B : List Bool) (r a b : ℕ) : Option ℕ :=
  if r = 0 then none
  else
    match select1 B (r + rank1 B a) with
    | none => none
    | some p => if p < b then some p else none

/-- Modelled from the spec: `select0_from_range(r, a, b)`, the 0-bit
analogue of `select1_from_range`. -/
def select0_from_range (B : List Bool) (r a b : ℕ) : Option ℕ :=
  if r = 0 then none
  else
    match select0 B (r + rank0 B a) with
    | none => none
    | some p => if p < b then some p else none

/-- The wavelet tree of `wavelettree.rs`: the packed bit buffer (the
`BitIndex` reduced to its logical bit sequence) together with the number of
layers. -/
structure WaveletTree where
  bits : List Bool
  num_layers : ℕ
  deriving Repr, DecidableEq

/-- Error kind of the construction-time format checks of `from_parts`
(both the `assert!` on `num_layers` and the explicit length check abort
construction before a tree value exists). -/
inductive WaveletError where
  | formatViolation
  deriving Repr, DecidableEq

/-- Models `WaveletTree::from_parts`: aborts (format violation) when
`num_layers == 0` or when the bit length is not a multiple of
`num_layers`; otherwise produces the tree unchanged. -/
def WaveletTree.from_parts (bits : List Bool) (num_layers : ℕ) :
    Except WaveletError WaveletTree :=
  if num_layers = 0 then .error .formatViolation
  else if bits.length % num_layers ≠ 0 then .error .formatViolation
  else .ok ⟨bits, num_layers⟩

/-- Models `WaveletTree::len`: `bits.len() / num_layers`. -/
def WaveletTree.len (t : WaveletTree) : ℕ := t.bits.length / t.num_layers

/-- Loop state of `WaveletTree::decode_one`. -/
structure DecodeState where
  offset : ℕ
  alphabet_start : ℕ
  alphabet_end : ℕ
  range_start : ℕ
  range_end : ℕ
  deriving Repr, DecidableEq

/-- One iteration of the layer loop of `decode_one`; `none` models the
`panic` on an out-of-range bit index.  The two `- 1` are ordinary `u64`
subtractions in the source; they never underflow because the rank is taken
over a half-open range that contains the just-read bit. -/
def WaveletTree.decode_step (t : WaveletTree) (len i : ℕ) (st : DecodeState) :
    Option DecodeState :=
  let index := i * len + st.range_start + st.offset
  if t.bits.length ≤ index then none
  else
    let bit := t.bits.getD index false
    let range_start_index := i * len + st.range_start
    let range_end_index := i * len + st.range_end
    if bit then
      some { offset := rank1_from_range t.bits range_start_index (index + 1) - 1
             alphabet_start := (st.alphabet_start + st.alphabet_end) / 2
             alphabet_end := st.alphabet_end
             range_start := st.range_start + rank0_from_range t.bits range_start_index range_end_index
             range_end := st.range_end }
    else
      some { offset := rank0_from_range t.bits range_start_index (index + 1) - 1
             alphabet_start := st.alphabet_start
             alphabet_end := (st.alphabet_start + st.alphabet_end) / 2
             range_start := st.range_start
             range_end := st.range_end - rank1_from_range t.bits range_start_index range_end_index }

/-- Models `WaveletTree::decode_one`; `none` models a panic, including the
final `assert!(alphabet_start == alphabet_end - 1)` (a `u64` subtraction,
hence `u64sub`). -/
def WaveletTree.decode_one (t : WaveletTree) (index : ℕ) : Option ℕ :=
  match (List.range t.num_layers).foldlM (fun st i => t.decode_step t.len i st)
      { offset := index, alphabet_start := 0, alphabet_end := pow2u64 t.num_layers,
        range_start := 0, range_end := t.len } with
  | none => none
  | some st => if st.alphabet_start = u64sub st.alphabet_end 1 then some st.alphabet_start else none

/-- Models `WaveletTree::decode`: `decode_one` over `0..len`, any panic
propagating. -/
def WaveletTree.decode (t : WaveletTree) : Option (List ℕ) :=
  (List.range t.len).mapM t.decode_one

/-- Loop state of `WaveletTree::lookup`. -/
structure LookupState where
  alphabet_start : ℕ
  alphabet_end : ℕ
  start_index : ℕ
  end_index : ℕ
  slices : List (Bool × ℕ × ℕ)
  deriving Repr, DecidableEq

/-- One iteration of the layer loop of `lookup` for symbol `v`.  The
alphabet values and their updates are `u64` operations that can wrap for
exotic layer counts, hence the explicit modular arithmetic — including in
the midpoint `(alphabet_start + alphabet_end) / 2`, whose addition wraps
modulo `2^64`; the `end_index` subtraction cannot underflow because a
range holds at most `width` 1-bits.  Returns `none` when the surviving
range becomes empty. -/
def WaveletTree.lookup_step (t : WaveletTree) (v width i : ℕ) (st : LookupState) :
    Option LookupState :=
  let full_start_index := i * width + st.start_index
  let full_end_index := i * width + st.end_index
  let b := decide ((st.alphabet_start + st.alphabet_end) % u64_size / 2 ≤ v)
  let pushed := st.slices ++ [(b, full_start_index, full_end_index)]
  let st' :=
    if b then
      { st with
        alphabet_start := (st.alphabet_start + pow2u64 (t.num_layers - i - 1)) % u64_size
        start_index := st.start_index + rank0_from_range t.bits full_start_index full_end_index
        slices := pushed }
    else
      { st with
        alphabet_end := u64sub st.alphabet_end (pow2u64 (t.num_layers - i - 1))
        end_index := st.end_index - rank1_from_range t.bits full_start_index full_end_index
        slices := pushed }
  if st'.start_index = st'.end_index then none else some st'

/-- A slice of a wavelet tree, as produced by `lookup`: the looked-up
symbol (field `entry` in the source, renamed here because the method
`WaveletSlice.entry` below needs the name), a clone of the tree, and the
per-layer `(bit, start, end)` triples. -/
structure WaveletSlice where
  entryValue : ℕ
  tree : WaveletTree
  slices : List (Bool × ℕ × ℕ)
  deriving Repr, DecidableEq

/-- Models `WaveletTree::lookup`: walk down the layers following the
half-interval containing `v`, returning `none` as soon as the range is
empty, else the slice handle. -/
def WaveletTree.lookup (t : WaveletTree) (v : ℕ) : Option WaveletSlice :=
  match (List.range t.num_layers).foldlM (fun st i => t.lookup_step v t.len i st)
      { alphabet_start := 0, alphabet_end := pow2u64 t.num_layers,
        start_index := 0, end_index := t.len, slices := [] } with
  | none => none
  | some st => some { entryValue := v, tree := t, slices := st.slices }

/-- Models `WaveletSlice::len`: rank of the recorded bit over the last
triple's range; `none` models the `unwrap` panic on an empty triple list. -/
def WaveletSlice.len (s : WaveletSlice) : Option ℕ :=
  match s.slices.getLast? with
  | none => none
  | some (b, start_index, end_index) =>
    some (if b then rank1_from_range s.tree.bits start_index end_index
          else rank0_from_range s.tree.bits start_index end_index)

/-- One step of the reverse walk in `WaveletSlice::entry`; `none` models
the `unwrap` panic when the range select is absent.  The `- start_index`
cannot underflow: a range select with a nonzero rank never lands before
the range start. -/
def WaveletSlice.entry_step (s : WaveletSlice) (result : ℕ) (tr : Bool × ℕ × ℕ) :
    Option ℕ :=
  match tr with
  | (b, start_index, end_index) =>
    match (if b then select1_from_range s.tree.bits result start_index end_index
           else select0_from_range s.tree.bits result start_index end_index) with
    | none => none
    | some p => some (p - start_index + 1)

/-- Models `WaveletSlice::entry`: panic (`none`) when `index` is out of
bounds, else walk the triples in reverse, turning the occurrence rank into
the original position. -/
def WaveletSlice.entry (s : WaveletSlice) (index : ℕ) : Option ℕ :=
  match s.len with
  | none => none
  | some l =>
    if l ≤ index then none
    else
      match s.slices.reverse.foldlM s.entry_step (index + 1) with
      | none => none
      | some result => some (result - 1)

/-- Models `WaveletSlice::iter`: `entry` over `0..len`, any panic
propagating. -/
def WaveletSlice.iter (s : WaveletSlice) : Option (List ℕ) :=
  match s.len with
  | none => none
  | some l => (List.range l).mapM s.entry

/-- Models `build_wavelet_fragment`: stream the source once and push, for
every symbol inside the fragment's alphabet interval, the bit telling
whether it lies in the upper half.  (`step` uses the `usize` power, and the
byte-sink plumbing of the original is dropped: the builder is the
accumulated bit list.) -/
def build_wavelet_fragment (S : List ℕ) (write : List Bool) (alphabet layer fragment : ℕ) :
    List Bool :=
  let step := alphabet / pow2u64 layer
  let alphabet_start := step * fragment
  let alphabet_end := step * (fragment + 1)
  let alphabet_mid := (alphabet_start + alphabet_end) / 2
  S.foldl (fun w num =>
    if alphabet_start ≤ num ∧ num < alphabet_end then w ++ [decide (alphabet_mid ≤ num)]
    else w) write

/-- Models `build_wavelet_tree` restricted to its logical content: fold
`build_wavelet_fragment` over all `(layer, fragment)` pairs in lexicographic
order, starting from the empty buffer.  `width` is the bit width reported
by the source log-array; the alphabet size is the (wrapping) `usize` power
`2^width`.  The file handling and the rank/select-index construction of the
original are I/O; the index is modelled by the `rank`/`select` functions
above. -/
def build_wavelet_tree (S : List ℕ) (width : ℕ) : List Bool :=
  let num_layers := width
  let alphabet_size := pow2u64 width
  ((List.range num_layers).flatMap (fun layer =>
      (List.range (pow2u64 layer)).map (fun fragment => (layer, fragment)))).foldl
    (fun b p => build_wavelet_fragment S b alphabet_size p.1 p.2) []

/-- The construction exactly as the spec words it (section 4.5): for each
layer `i` and fragment `f`, with `step = 2^w / 2^i`, append one bit
`x ≥ mid` for exactly the source symbols `x` inside
`[step·f, step·(f+1))`, in `(layer, fragment, stream-position)`
lexicographic order. -/
def build_wavelet_tree_spec (S : List ℕ) (w : ℕ) : List Bool :=
  (List.range w).flatMap (fun i =>
    (List.range (2 ^ i)).flatMap (fun f =>
      let step := 2 ^ w / 2 ^ i
      (S.filter (fun x => decide (step * f ≤ x ∧ x < step * (f + 1)))).map
        (fun x => decide ((step * f + step * (f + 1)) / 2 ≤ x))))

/-- Models the compile-time assertion of `convert.rs`:
`const _ : usize = 0 - !(size_of::<usize>() >= 32 >> 3) as usize;`.
Constant evaluation of a `usize` subtraction underflow is a compile error,
modelled by `none`; `ptr_bytes` is `size_of::<usize>()`. -/
def convert_static_assert (ptr_bytes : ℕ) : Option ℕ :=
  let cond : Bool := decide (32 >>> 3 ≤ ptr_bytes)
  let as_usize : ℕ := if !cond then 1 else 0
  if as_usize ≤ 0 then some (0 - as_usize) else none

/-! Basic structure of the builder fold. -/

/-- Filter-map view of a single fragment's bits: the symbols inside
`[a, e)` in stream order, each mapped to its upper-half bit. -/
def fragment_bits (S : List ℕ) (a e : ℕ) : List Bool :=
  (S.filter (fun x => decide (a ≤ x ∧ x < e))).map (fun x => decide ((a + e) / 2 ≤ x))

/-- The bits of one layer: fragments in increasing order. -/
def layer_bits (S : List ℕ) (w i : ℕ) : List Bool :=
  (List.range (2 ^ i)).flatMap (fun f =>
    fragment_bits S (2 ^ (w - i) * f) (2 ^ (w - i) * (f + 1)))

lemma foldl_push_filter (S : List ℕ) (p : ℕ → Prop) [DecidablePred p] (g : ℕ → Bool) :
    ∀ acc : List Bool,
      S.foldl (fun w num => if p num then w ++ [g num] else w) acc
        = acc ++ (S.filter (fun x => decide (p x))).map g := by
  induction S with
  | nil => intro acc; simp
  | cons x tl ih =>
    intro acc
    by_cases h : p x
    · simp only [List.foldl_cons, if_pos h, List.filter_cons, decide_eq_true h, ih,
        List.map_cons, List.append_assoc, List.singleton_append, ite_true]
    · simp only [List.foldl_cons, if_neg h, List.filter_cons, decide_eq_false h, ih, ite_false]
      simp

lemma build_wavelet_fragment_eq (S : List ℕ) (acc : List Bool) (A l f : ℕ) :
    build_wavelet_fragment S acc A l f
      = acc ++ fragment_bits S (A / pow2u64 l * f) (A / pow2u64 l * (f + 1)) := by
  unfold build_wavelet_fragment fragment_bits
  exact foldl_push_filter S _ _ acc

lemma foldl_fragments_eq (S : List ℕ) (A : ℕ) :
    ∀ (pairs : List (ℕ × ℕ)) (init : List Bool),
      pairs.foldl (fun b p => build_wavelet_fragment S b A p.1 p.2) init
        = init ++ pairs.flatMap (fun p =>
            fragment_bits S (A / pow2u64 p.1 * p.2) (A / pow2u64 p.1 * (p.2 + 1))) := by
  intro pairs
  induction pairs with
  | nil => intro init; simp
  | cons q tl ih =>
    intro init
    rw [List.foldl_cons, ih, build_wavelet_fragment_eq, List.flatMap_cons, List.append_assoc]

lemma pow2u64_eq_of_le63 (k : ℕ) (h : k ≤ 63) : pow2u64 k = 2 ^ k := by
  unfold pow2u64 u64_size
  exact Nat.mod_eq_of_lt (Nat.pow_lt_pow_right one_lt_two (by omega))

lemma pow2u64_ge64 (w : ℕ) (h : 64 ≤ w) : pow2u64 w = 0 := by
  unfold pow2u64 u64_size
  obtain ⟨k, rfl⟩ := Nat.exists_eq_add_of_le h
  rw [pow_add]
  exact Nat.mul_mod_right _ _

lemma fragment_bits_degenerate (S : List ℕ) : fragment_bits S 0 0 = [] := by
  unfold fragment_bits
  rw [List.filter_eq_nil_iff.mpr]
  · rfl
  · intro x _
    simp

/-- At width 64 and beyond the `usize` power `2^width` wraps to 0, every
fragment interval is `[0, 0)`, and the built bit buffer is empty. -/
lemma build_eq_nil_of_ge64 (S : List ℕ) (w : ℕ) (h : 64 ≤ w) :
    build_wavelet_tree S w = [] := by
  unfold build_wavelet_tree
  rw [foldl_fragments_eq, pow2u64_ge64 w h, List.nil_append]
  rw [List.flatMap_eq_nil_iff.mpr]
  intro p _
  rw [Nat.zero_div, Nat.zero_mul, Nat.zero_mul]
  exact fragment_bits_degenerate S

/-- C4: `from_parts` aborts with the format violation exactly when
`num_layers = 0` or the bit length is not a multiple of `num_layers`, and
otherwise returns the tree built from its arguments unchanged. -/
theorem from_parts_format_check (bits : List Bool) (nl : ℕ) :
    ((nl = 0 ∨ bits.length % nl ≠ 0) →
        WaveletTree.from_parts bits nl = .error .formatViolation) ∧
    (nl ≠ 0 → bits.length % nl = 0 →
        WaveletTree.from_parts bits nl = .ok ⟨bits, nl⟩) := by
  constructor
  · rintro (h | h)
    · simp [WaveletTree.from_parts, h]
    · by_cases hnl : nl = 0 <;> simp [WaveletTree.from_parts, hnl, h]
  · intro h1 h2
    simp [WaveletTree.from_parts, h1, h2]

/-- Witness for C4 at concrete inputs. -/
theorem from_parts_format_check_witness :
    WaveletTree.from_parts [] 0 = .error .formatViolation ∧
    WaveletTree.from_parts [true, false, true] 2 = .error .formatViolation ∧
    WaveletTree.from_parts [true] 1 = .ok ⟨[true], 1⟩ :=
  ⟨(from_parts_format_check [] 0).1 (Or.inl rfl),
   (from_parts_format_check [true, false, true] 2).1 (Or.inr (by decide)),
   (from_parts_format_check [true] 1).2 (by decide) (by decide)⟩


/-- C6: every tree produced by `from_parts` satisfies
`len · num_layers = |bits|` (queries are pure functions of the tree value
in this embedding, so the invariant holds for every reachable tree). -/
theorem from_parts_len_invariant (bits : List Bool) (nl : ℕ) (t : WaveletTree)
    (h : WaveletTree.from_parts bits nl = .ok t) :
    t.len * t.num_layers = t.bits.length := by
  by_cases h0 : nl = 0
  · simp [WaveletTree.from_parts, h0] at h
  · by_cases h1 : bits.length % nl = 0
    · simp only [WaveletTree.from_parts, if_neg h0, h1, ne_eq, not_true_eq_false,
        if_false, ite_false, Except.ok.injEq] at h
      subst h
      exact Nat.div_mul_cancel (Nat.dvd_of_mod_eq_zero h1)
    · simp [WaveletTree.from_parts, h0, h1] at h

/-- Witness for C6 at a concrete input. -/
theorem from_parts_len_invariant_witness :
    WaveletTree.from_parts [true, false] 2 = .ok ⟨[true, false], 2⟩ ∧
    (⟨[true, false], 2⟩ : WaveletTree).len * (⟨[true, false], 2⟩ : WaveletTree).num_layers
      = (⟨[true, false], 2⟩ : WaveletTree).bits.length :=
  ⟨rfl, from_parts_len_invariant [true, false] 2 ⟨[true, false], 2⟩ rfl⟩

/-- C7: the constant expression of `convert.rs` evaluates without
underflow exactly when the pointer width, in bits, is at least 32. -/
theorem convert_static_assert_iff (ptr_bytes : ℕ) :
    (convert_static_assert ptr_bytes).isSome = true ↔ 32 ≤ 8 * ptr_bytes := by
  unfold convert_static_assert
  have h4 : (32 >>> 3) = 4 := by decide
  rw [h4]
  by_cases h : 4 ≤ ptr_bytes
  · rw [decide_eq_true h]
    constructor
    · intro _
      omega
    · intro _
      rfl
  · rw [decide_eq_false h]
    constructor
    · intro hh
      simp at hh
    · intro hh
      omega

/-- C8: at `num_layers = 64` the initial alphabet bound `2_u64.pow(64)`
wraps to 0 instead of `2^64`, and `decode_one` on a width-64 tree aborts
at its final assertion — the claim that the bound is computed exactly for
every width in `[1, 64]` fails at 64. -/
theorem width64_alphabet_overflow_evidence :
    pow2u64 64 = 0 ∧ pow2u64 64 ≠ 2 ^ 64 ∧
    (⟨List.replicate 64 false, 64⟩ : WaveletTree).decode_one 0 = none :=
  ⟨by decide, by decide, by decide⟩

/-! Counting helpers over interval predicates. -/

/-- Count of symbols below `a`. -/
def cntLT (S : List ℕ) (a : ℕ) : ℕ := S.countP (fun x => decide (x < a))

/-- Count of symbols inside `[a, e)`. -/
def cntIn (S : List ℕ) (a e : ℕ) : ℕ := S.countP (fun x => decide (a ≤ x ∧ x < e))

/-- Symbols inside `[a, e)`, in stream order. -/
def seg (S : List ℕ) (a e : ℕ) : List ℕ := S.filter (fun x => decide (a ≤ x ∧ x < e))

lemma fragment_bits_eq_seg (S : List ℕ) (a e : ℕ) :
    fragment_bits S a e = (seg S a e).map (fun x => decide ((a + e) / 2 ≤ x)) := rfl

lemma countP_add_of_partition (l : List α) (p q r : α → Bool)
    (h : ∀ x, (if r x then 1 else 0) = (if p x then 1 else 0) + (if q x then 1 else 0)) :
    l.countP r = l.countP p + l.countP q := by
  induction l with
  | nil => simp
  | cons x tl ih =>
    simp only [List.countP_cons]
    have := h x
    omega

lemma cntLT_split (S : List ℕ) (a e : ℕ) (h : a ≤ e) :
    cntLT S e = cntLT S a + cntIn S a e := by
  apply countP_add_of_partition
  intro x
  by_cases h1 : x < a <;> by_cases h2 : x < e <;> by_cases h3 : a ≤ x <;>
    simp [h1, h2, h3] <;> omega

lemma cntIn_split (S : List ℕ) (a m e : ℕ) (h1 : a ≤ m) (h2 : m ≤ e) :
    cntIn S a e = cntIn S a m + cntIn S m e := by
  apply countP_add_of_partition
  intro x
  by_cases hx1 : a ≤ x <;> by_cases hx2 : m ≤ x <;> by_cases hx3 : x < m <;>
    by_cases hx4 : x < e <;> simp [hx1, hx2, hx3, hx4] <;> omega

lemma cntLT_zero (S : List ℕ) : cntLT S 0 = 0 := by
  simp [cntLT]

lemma cntLT_all (S : List ℕ) (e : ℕ) (h : ∀ x ∈ S, x < e) : cntLT S e = S.length := by
  unfold cntLT
  rw [List.countP_eq_length]
  intro x hx
  exact decide_eq_true (h x hx)

lemma seg_length (S : List ℕ) (a e : ℕ) : (seg S a e).length = cntIn S a e := by
  unfold seg cntIn
  rw [List.countP_eq_length_filter]

lemma seg_all (S : List ℕ) (e : ℕ) (h : ∀ x ∈ S, x < e) : seg S 0 e = S := by
  unfold seg
  rw [List.filter_eq_self]
  intro x hx
  exact decide_eq_true ⟨Nat.zero_le x, h x hx⟩

lemma seg_filter_upper (S : List ℕ) (a m e : ℕ) (h1 : a ≤ m) :
    (seg S a e).filter (fun x => decide (m ≤ x)) = seg S m e := by
  unfold seg
  rw [List.filter_filter]
  apply List.filter_congr
  intro x _
  by_cases hx1 : a ≤ x <;> by_cases hx2 : m ≤ x <;> by_cases hx3 : x < e <;>
    simp [hx1, hx2, hx3] <;> omega

lemma seg_filter_lower (S : List ℕ) (a m e : ℕ) (h2 : m ≤ e) :
    (seg S a e).filter (fun x => !decide (m ≤ x)) = seg S a m := by
  unfold seg
  rw [List.filter_filter]
  apply List.filter_congr
  intro x _
  by_cases hx1 : a ≤ x <;> by_cases hx2 : m ≤ x <;> by_cases hx3 : x < e <;>
    by_cases hx4 : x < m <;> simp [hx1, hx2, hx3, hx4] <;> omega

lemma filter_take_eq (l : List α) (p : α → Bool) :
    ∀ i, (l.take i).filter p = (l.filter p).take ((l.take i).countP p) := by
  induction l with
  | nil => intro i; simp
  | cons x tl ih =>
    intro i
    cases i with
    | zero => simp
    | succ j =>
      by_cases hx : p x
      · simp only [List.take_succ_cons, List.filter_cons, List.countP_cons, hx, if_true, ite_true]
        rw [ih j]
      · simp only [List.take_succ_cons, List.filter_cons, List.countP_cons, hx, if_false,
          ite_false, Bool.false_eq_true, Nat.add_zero]
        exact ih j

/-! Positions inside filtered lists. -/

lemma filter_getElem_of_count (p : α → Bool) :
    ∀ (l : List α) (i : ℕ) (x : α), l[i]? = some x → p x = true →
      (l.filter p)[(l.take i).countP p]? = some x := by
  intro l
  induction l with
  | nil => intro i x h; simp at h
  | cons y tl ih =>
    intro i x h hp
    cases i with
    | zero =>
      rw [List.getElem?_cons_zero, Option.some.injEq] at h
      subst h
      simp [List.filter_cons, hp]
    | succ j =>
      rw [List.getElem?_cons_succ] at h
      by_cases hy : p y
      · simp only [List.take_succ_cons, List.countP_cons, hy, if_true, ite_true,
          List.filter_cons, List.getElem?_cons_succ]
        exact ih j x h hp
      · simp only [List.take_succ_cons, List.countP_cons, hy, if_false, ite_false,
          Bool.false_eq_true, Nat.add_zero, List.filter_cons]
        exact ih j x h hp

lemma filter_getElem_inv (p : α → Bool) :
    ∀ (l : List α) (k : ℕ) (x : α), (l.filter p)[k]? = some x →
      ∃ q, q < l.length ∧ l[q]? = some x ∧ p x = true ∧ (l.take q).countP p = k := by
  intro l
  induction l with
  | nil => intro k x h; simp at h
  | cons y tl ih =>
    intro k x h
    by_cases hy : p y
    · rw [List.filter_cons_of_pos hy] at h
      cases k with
      | zero =>
        rw [List.getElem?_cons_zero, Option.some.injEq] at h
        subst h
        exact ⟨0, by simp, by simp, hy, by simp⟩
      | succ j =>
        rw [List.getElem?_cons_succ] at h
        obtain ⟨q, hq, hget, hpx, hcount⟩ := ih j x h
        refine ⟨q + 1, by simpa using hq, by simpa using hget, hpx, ?_⟩
        simp only [List.take_succ_cons, List.countP_cons, hy, if_true, ite_true]
        omega
    · rw [List.filter_cons_of_neg hy] at h
      obtain ⟨q, hq, hget, hpx, hcount⟩ := ih k x h
      refine ⟨q + 1, by simpa using hq, by simpa using hget, hpx, ?_⟩
      simp only [List.take_succ_cons, List.countP_cons, hy, if_false, ite_false,
        Bool.false_eq_true, Nat.add_zero]
      exact hcount

lemma count_take_lt_filter_length (p : α → Bool) (l : List α) (i : ℕ) (x : α)
    (h : l[i]? = some x) (hp : p x = true) :
    (l.take i).countP p < (l.filter p).length := by
  have hh := filter_getElem_of_count p l i x h hp
  rw [List.getElem?_eq_some] at hh
  exact hh.1

/-! Rank over take-prefixes: decomposition lemmas. -/

lemma rank1_le (B : List Bool) (i : ℕ) : rank1 B i ≤ i := by
  unfold rank1
  calc (B.take i).countP (fun b => b) ≤ (B.take i).length := List.countP_le_length _
    _ ≤ i := by rw [List.length_take]; omega

lemma rank1_add (B : List Bool) (i k : ℕ) :
    rank1 B (i + k) = rank1 B i + ((B.drop i).take k).countP (fun b => b) := by
  unfold rank1
  rw [List.take_add, List.countP_append]

lemma rank1_mono (B : List Bool) (i j : ℕ) (h : i ≤ j) : rank1 B i ≤ rank1 B j := by
  obtain ⟨k, rfl⟩ := Nat.exists_eq_add_of_le h
  rw [rank1_add]
  omega

lemma rank1_lipschitz (B : List Bool) (i j : ℕ) (h : i ≤ j) :
    rank1 B j ≤ rank1 B i + (j - i) := by
  obtain ⟨k, rfl⟩ := Nat.exists_eq_add_of_le h
  rw [rank1_add]
  have : ((B.drop i).take k).countP (fun b => b) ≤ k := by
    calc ((B.drop i).take k).countP (fun b => b) ≤ ((B.drop i).take k).length :=
        List.countP_le_length _
      _ ≤ k := by rw [List.length_take]; omega
  omega

lemma rank1_append_exact (P X : List Bool) (x : ℕ) :
    rank1 (P ++ X) (P.length + x) = P.countP (fun b => b) + rank1 X x := by
  unfold rank1
  rw [List.take_append_eq_append_take, List.countP_append]
  congr 2
  · rw [List.take_all_of_le]
    omega
  · congr 1
    omega

lemma rank1_prefix_stop (Q R : List Bool) (x : ℕ) (h : x ≤ Q.length) :
    rank1 (Q ++ R) x = rank1 Q x := by
  unfold rank1
  rw [List.take_append_eq_append_take]
  have : x - Q.length = 0 := by omega
  rw [this, List.take_zero, List.append_nil]

lemma rank1_from_range_append (P X : List Bool) (x y : ℕ) :
    rank1_from_range (P ++ X) (P.length + x) (P.length + y) = rank1_from_range X x y := by
  unfold rank1_from_range
  rw [rank1_append_exact, rank1_append_exact]
  omega

lemma rank0_from_range_append (P X : List Bool) (x y : ℕ) :
    rank0_from_range (P ++ X) (P.length + x) (P.length + y) = rank0_from_range X x y := by
  unfold rank0_from_range rank0
  rw [rank1_append_exact, rank1_append_exact]
  have h1 : rank1 X x ≤ x := rank1_le X x
  have h2 : rank1 X y ≤ y := rank1_le X y
  have h3 : P.countP (fun b => b) ≤ P.length := List.countP_le_length _
  omega

lemma rank1_from_range_within (Q R : List Bool) (x y : ℕ) (hx : x ≤ Q.length)
    (hy : y ≤ Q.length) :
    rank1_from_range (Q ++ R) x y = rank1_from_range Q x y := by
  unfold rank1_from_range
  rw [rank1_prefix_stop Q R x hx, rank1_prefix_stop Q R y hy]

lemma rank0_from_range_within (Q R : List Bool) (x y : ℕ) (hx : x ≤ Q.length)
    (hy : y ≤ Q.length) :
    rank0_from_range (Q ++ R) x y = rank0_from_range Q x y := by
  unfold rank0_from_range rank0
  rw [rank1_prefix_stop Q R x hx, rank1_prefix_stop Q R y hy]

lemma rank1_take_all (Q : List Bool) : rank1 Q Q.length = Q.countP (fun b => b) := by
  unfold rank1
  rw [List.take_length]

lemma rank1_take_partial (Q : List Bool) (x : ℕ) :
    rank1 Q x = (Q.take x).countP (fun b => b) := rfl

lemma countP_not_add (Q : List Bool) :
    Q.countP (fun b => !b) + Q.countP (fun b => b) = Q.length := by
  induction Q with
  | nil => simp
  | cons b tl ih =>
    cases b <;> simp only [List.countP_cons, List.length_cons] <;> simp <;> omega

lemma rank1_from_range_append0 (P X : List Bool) (y : ℕ) :
    rank1_from_range (P ++ X) P.length (P.length + y) = rank1_from_range X 0 y := by
  have h := rank1_from_range_append P X 0 y
  simpa using h

lemma rank0_from_range_append0 (P X : List Bool) (y : ℕ) :
    rank0_from_range (P ++ X) P.length (P.length + y) = rank0_from_range X 0 y := by
  have h := rank0_from_range_append P X 0 y
  simpa using h

lemma rank1_from_range_part (P Q R : List Bool) (x : ℕ) (hx : x ≤ Q.length) :
    rank1_from_range (P ++ (Q ++ R)) P.length (P.length + x)
      = (Q.take x).countP (fun b => b) := by
  rw [rank1_from_range_append0]
  unfold rank1_from_range
  rw [rank1_prefix_stop Q R x hx]
  simp [rank1]

lemma rank0_from_range_part (P Q R : List Bool) (x : ℕ) (hx : x ≤ Q.length) :
    rank0_from_range (P ++ (Q ++ R)) P.length (P.length + x)
      = (Q.take x).countP (fun b => !b) := by
  rw [rank0_from_range_append0]
  unfold rank0_from_range rank0
  rw [rank1_prefix_stop Q R x hx]
  have h2 := countP_not_add (Q.take x)
  have h3 : (Q.take x).length = x := by rw [List.length_take]; omega
  simp only [rank1, List.take_zero, List.countP_nil]
  omega

lemma rank1_from_range_exact (P Q R : List Bool) :
    rank1_from_range (P ++ (Q ++ R)) P.length (P.length + Q.length)
      = Q.countP (fun b => b) := by
  rw [rank1_from_range_part P Q R Q.length (Nat.le_refl _), List.take_length]

lemma rank0_from_range_exact (P Q R : List Bool) :
    rank0_from_range (P ++ (Q ++ R)) P.length (P.length + Q.length)
      = Q.countP (fun b => !b) := by
  rw [rank0_from_range_part P Q R Q.length (Nat.le_refl _), List.take_length]

lemma rank_split_range (B : List Bool) (a b : ℕ) (h : a ≤ b) :
    rank1_from_range B a b + rank0_from_range B a b = b - a := by
  unfold rank1_from_range rank0_from_range rank0
  have h1 := rank1_le B a
  have h2 := rank1_le B b
  have h3 := rank1_mono B a b h
  have h4 := rank1_lipschitz B a b h
  omega

lemma getD_append_exact (P X : List Bool) (k : ℕ) (d : Bool) :
    (P ++ X).getD (P.length + k) d = X.getD k d := by
  rw [List.getD_eq_getElem?_getD, List.getD_eq_getElem?_getD,
    List.getElem?_append_right (by omega)]
  congr 2
  omega

lemma getD_prefix (Q R : List Bool) (k : ℕ) (d : Bool) (h : k < Q.length) :
    (Q ++ R).getD k d = Q.getD k d := by
  rw [List.getD_eq_getElem?_getD, List.getD_eq_getElem?_getD, List.getElem?_append_left h]

/-! Monadic fold and map helpers for the loop embeddings. -/

lemma foldlM_append_opt (f : β → α → Option β) (l₁ l₂ : List α) (b : β) :
    (l₁ ++ l₂).foldlM f b = (l₁.foldlM f b).bind (fun x => l₂.foldlM f x) := by
  rw [List.foldlM_append]
  rfl

lemma mapM_range'_eq (f : ℕ → Option β) :
    ∀ (L : List β) (s : ℕ), (∀ k, k < L.length → f (s + k) = L[k]?) →
      (List.range' s L.length).mapM f = some L := by
  intro L
  induction L with
  | nil => intro s _; rfl
  | cons y tl ih =>
    intro s h
    have h0 : f s = some y := by
      have := h 0 (by simp)
      simpa using this
    rw [List.length_cons, List.range'_succ, List.mapM_cons, h0]
    have htl : (List.range' (s + 1) tl.length).mapM f = some tl := by
      apply ih
      intro k hk
      have := h (k + 1) (by simp; omega)
      rw [List.getElem?_cons_succ] at this
      rw [← this]
      congr 1
      omega
    rw [htl]
    rfl

lemma mapM_range_eq (f : ℕ → Option β) (L : List β)
    (h : ∀ k, k < L.length → f k = L[k]?) :
    (List.range L.length).mapM f = some L := by
  rw [List.range_eq_range']
  apply mapM_range'_eq
  intro k hk
  rw [Nat.zero_add]
  exact h k hk

lemma flatMap_length_const (L : List α) (g : α → List β) (n : ℕ)
    (h : ∀ x ∈ L, (g x).length = n) : (L.flatMap g).length = L.length * n := by
  induction L with
  | nil => simp
  | cons y tl ih =>
    rw [List.flatMap_cons, List.length_append, h y (by simp), ih (fun x hx => h x (by simp [hx]))]
    rw [List.length_cons]
    ring

lemma fragment_prefix_length (S : List ℕ) (P : ℕ) :
    ∀ F : ℕ, ((List.range F).flatMap (fun f => fragment_bits S (P * f) (P * (f + 1)))).length
      = cntLT S (P * F) := by
  intro F
  induction F with
  | zero => simp [cntLT_zero]
  | succ m ih =>
    rw [List.range_succ, List.flatMap_append, List.length_append, ih]
    rw [List.flatMap_cons, List.flatMap_nil, List.append_nil]
    rw [fragment_bits_eq_seg, List.length_map, seg_length]
    rw [← cntLT_split S (P * m) (P * (m + 1)) (by nlinarith)]

lemma layer_bits_length (S : List ℕ) (w i : ℕ) (hi : i ≤ w) (hS : ∀ x ∈ S, x < 2 ^ w) :
    (layer_bits S w i).length = S.length := by
  unfold layer_bits
  rw [fragment_prefix_length]
  have hpow : 2 ^ (w - i) * 2 ^ i = 2 ^ w := by
    rw [← pow_add]
    congr 1
    omega
  rw [hpow]
  exact cntLT_all S _ hS

lemma build_flat_length (S : List ℕ) (w : ℕ) (hS : ∀ x ∈ S, x < 2 ^ w) :
    ((List.range w).flatMap (layer_bits S w)).length = w * S.length := by
  rw [flatMap_length_const _ _ S.length]
  · rw [List.length_range]
  · intro i hi
    exact layer_bits_length S w i (Nat.le_of_lt (List.mem_range.mp hi)) hS

lemma flatMap_congr_mem (L : List α) (f g : α → List β) (h : ∀ x ∈ L, f x = g x) :
    L.flatMap f = L.flatMap g := by
  induction L with
  | nil => rfl
  | cons y tl ih =>
    rw [List.flatMap_cons, List.flatMap_cons, h y (by simp),
      ih (fun x hx => h x (by simp [hx]))]

lemma build_eq_layers (S : List ℕ) (w : ℕ) (hw : w ≤ 63) :
    build_wavelet_tree S w = (List.range w).flatMap (layer_bits S w) := by
  show ((List.range w).flatMap (fun layer =>
      (List.range (pow2u64 layer)).map (fun fragment => (layer, fragment)))).foldl
    (fun b p => build_wavelet_fragment S b (pow2u64 w) p.1 p.2) [] = _
  rw [foldl_fragments_eq, List.nil_append, List.flatMap_assoc]
  apply flatMap_congr_mem
  intro layer hl
  have hlw : layer < w := List.mem_range.mp hl
  rw [List.flatMap_map]
  unfold layer_bits
  rw [pow2u64_eq_of_le63 layer (by omega)]
  apply flatMap_congr_mem
  intro f _
  have hstep : pow2u64 w / 2 ^ layer = 2 ^ (w - layer) := by
    rw [pow2u64_eq_of_le63 w hw, Nat.pow_div (by omega) (by omega)]
  simp only
  rw [pow2u64_eq_of_le63 layer (by omega), hstep]

lemma build_spec_eq_layers (S : List ℕ) (w : ℕ) :
    build_wavelet_tree_spec S w = (List.range w).flatMap (layer_bits S w) := by
  unfold build_wavelet_tree_spec layer_bits
  apply flatMap_congr_mem
  intro i hi
  have hiw : i < w := List.mem_range.mp hi
  have hstep : 2 ^ w / 2 ^ i = 2 ^ (w - i) := Nat.pow_div (by omega) (by omega)
  simp only [hstep]
  rfl

lemma build_length (S : List ℕ) (w : ℕ) (hw : w ≤ 63) (hS : ∀ x ∈ S, x < 2 ^ w) :
    (build_wavelet_tree S w).length = w * S.length := by
  rw [build_eq_layers S w hw]
  exact build_flat_length S w hS

lemma range_split_at (w i : ℕ) (hi : i < w) :
    List.range w = List.range i ++ (i :: List.range' (i + 1) (w - i - 1)) := by
  rw [List.range_eq_range', List.range_eq_range']
  have h1 := List.range'_append 0 i (w - i) 1
  simp only [Nat.zero_add, Nat.one_mul] at h1
  have h2 : w - i + i = w := by omega
  rw [h2] at h1
  rw [← h1]
  congr 1
  have h3 : w - i = (w - i - 1) + 1 := by omega
  conv_lhs => rw [h3]
  rw [List.range'_succ]

/-- Decomposition of the built buffer around the fragment `(i, f)`:
everything before it has length `i·n + cntLT S (fragment start)`. -/
lemma build_decomp (S : List ℕ) (w i f : ℕ) (hw : w ≤ 63) (hi : i < w) (hf : f < 2 ^ i)
    (hS : ∀ x ∈ S, x < 2 ^ w) :
    ∃ pre rest, build_wavelet_tree S w
        = pre ++ (fragment_bits S (2 ^ (w - i) * f) (2 ^ (w - i) * (f + 1)) ++ rest)
      ∧ pre.length = i * S.length + cntLT S (2 ^ (w - i) * f) := by
  have hsplitw := range_split_at w i hi
  have hsplitf := range_split_at (2 ^ i) f hf
  have hbuild := build_eq_layers S w hw
  rw [hsplitw, List.flatMap_append, List.flatMap_cons] at hbuild
  have hlayer : layer_bits S w i
      = (List.range f).flatMap (fun f' => fragment_bits S (2 ^ (w - i) * f') (2 ^ (w - i) * (f' + 1)))
        ++ (fragment_bits S (2 ^ (w - i) * f) (2 ^ (w - i) * (f + 1))
            ++ (List.range' (f + 1) (2 ^ i - f - 1)).flatMap
                (fun f' => fragment_bits S (2 ^ (w - i) * f') (2 ^ (w - i) * (f' + 1)))) := by
    unfold layer_bits
    rw [hsplitf, List.flatMap_append, List.flatMap_cons]
  refine ⟨(List.range i).flatMap (layer_bits S w)
      ++ (List.range f).flatMap (fun f' => fragment_bits S (2 ^ (w - i) * f') (2 ^ (w - i) * (f' + 1))),
    (List.range' (f + 1) (2 ^ i - f - 1)).flatMap
        (fun f' => fragment_bits S (2 ^ (w - i) * f') (2 ^ (w - i) * (f' + 1)))
      ++ (List.range' (i + 1) (w - i - 1)).flatMap (layer_bits S w), ?_, ?_⟩
  · rw [hbuild, hlayer]
    simp [List.append_assoc]
  · rw [List.length_append, fragment_prefix_length, flatMap_length_const _ _ S.length]
    · rw [List.length_range]
    · intro x hx
      exact layer_bits_length S w x (by have := List.mem_range.mp hx; omega) hS

/-! Interval arithmetic for the alphabet-halving walk. -/

lemma div_interval (s P : ℕ) (hP : 0 < P) :
    P * (s / P) ≤ s ∧ s < P * (s / P) + P := by
  have hdm := Nat.div_add_mod s P
  have hm := Nat.mod_lt s hP
  omega

lemma div_pow_step_up (s k : ℕ)
    (h : 2 ^ (k + 1) * (s / 2 ^ (k + 1)) + 2 ^ k ≤ s) :
    2 ^ k * (s / 2 ^ k) = 2 ^ (k + 1) * (s / 2 ^ (k + 1)) + 2 ^ k := by
  have hP : 0 < 2 ^ k := Nat.pos_pow_of_pos k (by omega)
  have hP2 : 2 ^ (k + 1) = 2 * 2 ^ k := by rw [pow_succ]; ring
  have hint := div_interval s (2 ^ (k + 1)) (Nat.pos_pow_of_pos (k + 1) (by omega))
  have hdiv : s / 2 ^ k = 2 * (s / 2 ^ (k + 1)) + 1 := by
    apply Nat.div_eq_of_lt_le
    · have he : (2 * (s / 2 ^ (k + 1)) + 1) * 2 ^ k = 2 ^ (k + 1) * (s / 2 ^ (k + 1)) + 2 ^ k := by
        rw [hP2]; ring
      omega
    · have he : (2 * (s / 2 ^ (k + 1)) + 1 + 1) * 2 ^ k
          = 2 ^ (k + 1) * (s / 2 ^ (k + 1)) + 2 ^ (k + 1) := by
        rw [hP2]; ring
      omega
  rw [hdiv, hP2]
  ring

lemma div_pow_step_down (s k : ℕ)
    (h : s < 2 ^ (k + 1) * (s / 2 ^ (k + 1)) + 2 ^ k) :
    2 ^ k * (s / 2 ^ k) = 2 ^ (k + 1) * (s / 2 ^ (k + 1)) := by
  have hP : 0 < 2 ^ k := Nat.pos_pow_of_pos k (by omega)
  have hP2 : 2 ^ (k + 1) = 2 * 2 ^ k := by rw [pow_succ]; ring
  have hint := div_interval s (2 ^ (k + 1)) (Nat.pos_pow_of_pos (k + 1) (by omega))
  have hdiv : s / 2 ^ k = 2 * (s / 2 ^ (k + 1)) := by
    apply Nat.div_eq_of_lt_le
    · have he : 2 * (s / 2 ^ (k + 1)) * 2 ^ k = 2 ^ (k + 1) * (s / 2 ^ (k + 1)) := by
        rw [hP2]; ring
      omega
    · have he : (2 * (s / 2 ^ (k + 1)) + 1) * 2 ^ k
          = 2 ^ (k + 1) * (s / 2 ^ (k + 1)) + 2 ^ k := by
        rw [hP2]; ring
      omega
  rw [hdiv, hP2]
  ring

lemma u64_size_val : u64_size = 18446744073709551616 := by norm_num [u64_size]

lemma u64sub_exact (x y : ℕ) (hyx : y ≤ x) (hx : x < u64_size) : u64sub x y = x - y := by
  have hv := u64_size_val
  unfold u64sub
  have h1 : y % u64_size = y := Nat.mod_eq_of_lt (by omega)
  rw [h1]
  have h2 : u64_size + x - y = u64_size + (x - y) := by omega
  rw [h2, Nat.add_mod_left]
  exact Nat.mod_eq_of_lt (by omega)

lemma getD_getElem? (l : List ℕ) (i : ℕ) (h : i < l.length) :
    l[i]? = some (l.getD i 0) := by
  have h1 : l[i]? = some l[i] := List.getElem?_eq_getElem h
  rw [List.getD_eq_getElem?_getD, h1]
  rfl

lemma countP_ext_mem (l : List α) (p q : α → Bool) (h : ∀ x ∈ l, p x = q x) :
    l.countP p = l.countP q := by
  induction l with
  | nil => rfl
  | cons y tl ih =>
    rw [List.countP_cons, List.countP_cons, h y (by simp),
      ih (fun x hx => h x (by simp [hx]))]

lemma countP_upper_and (l : List ℕ) (a m e : ℕ) (ha : a ≤ m) :
    l.countP (fun x => decide (m ≤ x) && decide (a ≤ x ∧ x < e))
      = l.countP (fun x => decide (m ≤ x ∧ x < e)) := by
  apply countP_ext_mem
  intro x _
  by_cases h1 : m ≤ x <;> by_cases h2 : a ≤ x <;> by_cases h3 : x < e <;>
    simp [h1, h2, h3] <;> omega

lemma countP_lower_and (l : List ℕ) (a m e : ℕ) (he : m ≤ e) :
    l.countP (fun x => !decide (m ≤ x) && decide (a ≤ x ∧ x < e))
      = l.countP (fun x => decide (a ≤ x ∧ x < m)) := by
  apply countP_ext_mem
  intro x _
  by_cases h1 : m ≤ x <;> by_cases h2 : a ≤ x <;> by_cases h3 : x < e <;>
    by_cases h4 : x < m <;> simp [h1, h2, h3, h4] <;> omega

lemma countP_take_succ (S : List ℕ) (p : ℕ → Bool) (i : ℕ) (x : ℕ) (h : S[i]? = some x) :
    (S.take (i + 1)).countP p = (S.take i).countP p + (if p x then 1 else 0) := by
  rw [List.take_succ, h, List.countP_append]
  simp [List.countP_cons]

/-- Closed form of the `decode_one` loop state after `i` layers, for the
query index `idx0` over a tree built from `S` at width `w`. -/
def decode_state_at (S : List ℕ) (w idx0 i : ℕ) : DecodeState :=
  let s := S.getD idx0 0
  let P := 2 ^ (w - i)
  let a := P * (s / P)
  { offset := (S.take idx0).countP (fun x => decide (a ≤ x ∧ x < a + P))
    alphabet_start := a
    alphabet_end := a + P
    range_start := cntLT S a
    range_end := cntLT S (a + P) }

lemma decode_step_true (t : WaveletTree) (len i : ℕ) (st : DecodeState)
    (hg : ¬ t.bits.length ≤ i * len + st.range_start + st.offset)
    (hb : t.bits.getD (i * len + st.range_start + st.offset) false = true) :
    t.decode_step len i st = some
      { offset := rank1_from_range t.bits (i * len + st.range_start)
          (i * len + st.range_start + st.offset + 1) - 1
        alphabet_start := (st.alphabet_start + st.alphabet_end) / 2
        alphabet_end := st.alphabet_end
        range_start := st.range_start + rank0_from_range t.bits (i * len + st.range_start)
          (i * len + st.range_end)
        range_end := st.range_end } := by
  unfold WaveletTree.decode_step
  rw [if_neg hg, hb]
  simp

lemma decode_step_false (t : WaveletTree) (len i : ℕ) (st : DecodeState)
    (hg : ¬ t.bits.length ≤ i * len + st.range_start + st.offset)
    (hb : t.bits.getD (i * len + st.range_start + st.offset) false = false) :
    t.decode_step len i st = some
      { offset := rank0_from_range t.bits (i * len + st.range_start)
          (i * len + st.range_start + st.offset + 1) - 1
        alphabet_start := st.alphabet_start
        alphabet_end := (st.alphabet_start + st.alphabet_end) / 2
        range_start := st.range_start
        range_end := st.range_end - rank1_from_range t.bits (i * len + st.range_start)
          (i * len + st.range_end) } := by
  unfold WaveletTree.decode_step
  rw [if_neg hg, hb]
  simp

lemma fragment_getD (S : List ℕ) (a e off s : ℕ) (h : (seg S a e)[off]? = some s) :
    (fragment_bits S a e).getD off false = decide ((a + e) / 2 ≤ s) := by
  rw [fragment_bits_eq_seg, List.getD_eq_getElem?_getD, List.getElem?_map, h]
  rfl

lemma fragment_take_count1 (S : List ℕ) (a e x : ℕ) :
    ((fragment_bits S a e).take x).countP (fun b => b)
      = ((seg S a e).take x).countP (fun y => decide ((a + e) / 2 ≤ y)) := by
  rw [fragment_bits_eq_seg, ← List.map_take, List.countP_map]
  rfl

lemma fragment_take_count0 (S : List ℕ) (a e x : ℕ) :
    ((fragment_bits S a e).take x).countP (fun b => !b)
      = ((seg S a e).take x).countP (fun y => !decide ((a + e) / 2 ≤ y)) := by
  rw [fragment_bits_eq_seg, ← List.map_take, List.countP_map]
  rfl

lemma fragment_count1 (S : List ℕ) (a e : ℕ) :
    (fragment_bits S a e).countP (fun b => b)
      = (seg S a e).countP (fun y => decide ((a + e) / 2 ≤ y)) := by
  rw [fragment_bits_eq_seg, List.countP_map]
  rfl

lemma fragment_count0 (S : List ℕ) (a e : ℕ) :
    (fragment_bits S a e).countP (fun b => !b)
      = (seg S a e).countP (fun y => !decide ((a + e) / 2 ≤ y)) := by
  rw [fragment_bits_eq_seg, List.countP_map]
  rfl

/-- One `decode_one` iteration maps the closed-form state at layer `i` to
the closed-form state at layer `i + 1`. -/
lemma decode_step_eq (S : List ℕ) (w idx0 i : ℕ) (hw : w ≤ 63)
    (hi : i < w) (hidx : idx0 < S.length) (hS : ∀ x ∈ S, x < 2 ^ w) :
    WaveletTree.decode_step ⟨build_wavelet_tree S w, w⟩ S.length i (decode_state_at S w idx0 i)
      = some (decode_state_at S w idx0 (i + 1)) := by
  have hget0 : S[idx0]? = some (S.getD idx0 0) := getD_getElem? S idx0 hidx
  set s := S.getD idx0 0 with hs_def
  have hget : S[idx0]? = some s := hget0
  have hs_mem : s ∈ S := by
    obtain ⟨hlt, heq⟩ := List.getElem?_eq_some.mp hget
    rw [← heq]
    exact List.getElem_mem hlt
  have hsw : s < 2 ^ w := hS s hs_mem
  have hwi : w - i = (w - i - 1) + 1 := by omega
  set K := 2 ^ (w - i - 1) with hK_def
  set P := 2 ^ (w - i) with hP_def
  have hK0 : 0 < K := by rw [hK_def]; exact pow_pos (by omega) _
  have hPK : P = 2 * K := by
    have h1 : 2 ^ ((w - i - 1) + 1) = 2 ^ (w - i - 1) * 2 := pow_succ 2 (w - i - 1)
    have h2 : (w - i - 1) + 1 = w - i := by omega
    rw [h2] at h1
    rw [hP_def, hK_def, h1]
    ring
  set f := s / P with hf_def
  set a := P * f with ha_def
  have hint : a ≤ s ∧ s < a + P := by
    rw [ha_def, hf_def]
    exact div_interval s P (by rw [hP_def]; exact pow_pos (by omega) _)
  have hmid_eq : (a + (a + P)) / 2 = a + K := by omega
  have hflt : f < 2 ^ i := by
    rw [hf_def]
    rw [Nat.div_lt_iff_lt_mul (by rw [hP_def]; exact pow_pos (by omega) _)]
    calc s < 2 ^ w := hsw
      _ = 2 ^ i * P := by rw [hP_def, ← pow_add]; congr 1; omega
  obtain ⟨pre, rest, hB, hpre⟩ := build_decomp S w i f hw hi hflt hS
  have hfe : P * (f + 1) = a + P := by rw [ha_def]; ring
  rw [hfe] at hB
  rw [← hP_def, ← ha_def] at hB hpre
  set frag := fragment_bits S a (a + P) with hfrag_def
  set pIn : ℕ → Bool := fun x => decide (a ≤ x ∧ x < a + P) with hpIn_def
  have hps : pIn s = true := by
    rw [hpIn_def]
    exact decide_eq_true ⟨hint.1, hint.2⟩
  have hsegfilter : seg S a (a + P) = S.filter pIn := by rw [hpIn_def]; rfl
  have hfraglen : frag.length = cntIn S a (a + P) := by
    rw [hfrag_def, fragment_bits_eq_seg, List.length_map, seg_length]
  set off := (S.take idx0).countP pIn with hoff_def
  have hoff_lt : off < frag.length := by
    have h1 := count_take_lt_filter_length pIn S idx0 s hget hps
    rw [hfrag_def, fragment_bits_eq_seg, List.length_map, hsegfilter]
    exact h1
  have hTo : (seg S a (a + P))[off]? = some s := by
    rw [hsegfilter]
    exact filter_getElem_of_count pIn S idx0 s hget hps
  have hcntsplit : cntLT S (a + P) = cntLT S a + cntIn S a (a + P) :=
    cntLT_split S a (a + P) (by omega)
  have hstep_up : a + K ≤ s → K * (s / K) = a + K := by
    intro hc
    have h2 := div_pow_step_up s (w - i - 1)
    rw [← hwi, ← hP_def, ← hK_def, ← hf_def, ← ha_def] at h2
    exact h2 hc
  have hstep_down : s < a + K → K * (s / K) = a := by
    intro hc
    have h2 := div_pow_step_down s (w - i - 1)
    rw [← hwi, ← hP_def, ← hK_def, ← hf_def, ← ha_def] at h2
    exact h2 hc
  -- projections of the layer-i state
  have hproj_off : (decode_state_at S w idx0 i).offset = off := rfl
  have hproj_as : (decode_state_at S w idx0 i).alphabet_start = a := rfl
  have hproj_ae : (decode_state_at S w idx0 i).alphabet_end = a + P := rfl
  have hproj_rs : (decode_state_at S w idx0 i).range_start = cntLT S a := rfl
  have hproj_re : (decode_state_at S w idx0 i).range_end = cntLT S (a + P) := rfl
  -- guard and bit value
  have hguard : ¬ ((pre ++ (frag ++ rest)).length ≤ i * S.length + cntLT S a + off) := by
    simp only [List.length_append]
    omega
  have e3 : i * S.length + cntLT S a + off = pre.length + off := by omega
  have hb : (pre ++ (frag ++ rest)).getD (i * S.length + cntLT S a + off) false
      = decide (a + K ≤ s) := by
    rw [e3, getD_append_exact, getD_prefix frag rest off false hoff_lt, hfrag_def,
      fragment_getD S a (a + P) off s hTo, hmid_eq]
  have e1 : i * S.length + cntLT S a = pre.length := by omega
  have hoffsucc : (S.take (idx0 + 1)).countP pIn = off + 1 := by
    rw [countP_take_succ S pIn idx0 s hget, hps]
    simp
  rw [hB]
  rcases Nat.lt_or_ge s (a + K) with hcase | hcase
  · -- lower half: bit = 0
    have hbit : (pre ++ (frag ++ rest)).getD (i * S.length + cntLT S a + off) false = false := by
      rw [hb]
      exact decide_eq_false (by omega)
    rw [decode_step_false ⟨pre ++ (frag ++ rest), w⟩ S.length i (decode_state_at S w idx0 i)
      (by rw [hproj_rs, hproj_off]; exact hguard) (by rw [hproj_rs, hproj_off]; exact hbit)]
    have hbits_red : (⟨pre ++ (frag ++ rest), w⟩ : WaveletTree).bits = pre ++ (frag ++ rest) := rfl
    rw [hbits_red, hproj_off, hproj_as, hproj_ae, hproj_rs, hproj_re]
    -- target state
    have hstA : decode_state_at S w idx0 (i + 1)
        = ⟨(S.take idx0).countP (fun x => decide (a ≤ x ∧ x < a + K)), a, a + K,
            cntLT S a, cntLT S (a + K)⟩ := by
      unfold decode_state_at
      simp only [show w - (i + 1) = w - i - 1 from by omega, ← hK_def, ← hs_def,
        hstep_down hcase]
    rw [hstA]
    -- fields
    have hfield_as : (a + (a + P)) / 2 = a + K := hmid_eq
    have hfield_off : rank0_from_range (pre ++ (frag ++ rest)) (i * S.length + cntLT S a)
        (i * S.length + cntLT S a + off + 1) - 1
        = (S.take idx0).countP (fun x => decide (a ≤ x ∧ x < a + K)) := by
      have e2 : i * S.length + cntLT S a + off + 1 = pre.length + (off + 1) := by omega
      rw [e2, e1, rank0_from_range_part pre frag rest (off + 1) (by omega), hfrag_def,
        fragment_take_count0]
      simp only [hmid_eq]
      rw [← hoffsucc, hsegfilter, ← filter_take_eq, List.countP_filter, hpIn_def]
      rw [countP_lower_and (S.take (idx0 + 1)) a (a + K) (a + P) (by omega)]
      have hlast : (S.take (idx0 + 1)).countP (fun x => decide (a ≤ x ∧ x < a + K))
          = (S.take idx0).countP (fun x => decide (a ≤ x ∧ x < a + K)) + 1 := by
        rw [countP_take_succ S _ idx0 s hget]
        have : decide (a ≤ s ∧ s < a + K) = true := decide_eq_true ⟨hint.1, hcase⟩
        rw [this]
        simp
      rw [hlast]
      omega
    have hfield_re : cntLT S (a + P) - rank1_from_range (pre ++ (frag ++ rest))
        (i * S.length + cntLT S a) (i * S.length + cntLT S (a + P)) = cntLT S (a + K) := by
      have e4 : i * S.length + cntLT S (a + P) = pre.length + frag.length := by omega
      rw [e1, e4, rank1_from_range_exact pre frag rest, hfrag_def, fragment_count1]
      simp only [hmid_eq]
      rw [hsegfilter, List.countP_filter, hpIn_def]
      rw [countP_upper_and S a (a + K) (a + P) (by omega)]
      have hsplit2 : cntLT S (a + P) = cntLT S (a + K) + cntIn S (a + K) (a + P) := by
        have u1 := cntLT_split S (a + K) (a + P) (by omega)
        omega
      have : S.countP (fun x => decide (a + K ≤ x ∧ x < a + P)) = cntIn S (a + K) (a + P) := rfl
      rw [this]
      omega
    rw [hfield_as, hfield_off, hfield_re]
  · -- upper half: bit = 1
    have hbit : (pre ++ (frag ++ rest)).getD (i * S.length + cntLT S a + off) false = true := by
      rw [hb]
      exact decide_eq_true hcase
    rw [decode_step_true ⟨pre ++ (frag ++ rest), w⟩ S.length i (decode_state_at S w idx0 i)
      (by rw [hproj_rs, hproj_off]; exact hguard) (by rw [hproj_rs, hproj_off]; exact hbit)]
    have hbits_red : (⟨pre ++ (frag ++ rest), w⟩ : WaveletTree).bits = pre ++ (frag ++ rest) := rfl
    rw [hbits_red, hproj_off, hproj_as, hproj_ae, hproj_rs, hproj_re]
    have hstA : decode_state_at S w idx0 (i + 1)
        = ⟨(S.take idx0).countP (fun x => decide (a + K ≤ x ∧ x < a + K + K)), a + K, a + K + K,
            cntLT S (a + K), cntLT S (a + K + K)⟩ := by
      unfold decode_state_at
      simp only [show w - (i + 1) = w - i - 1 from by omega, ← hK_def, ← hs_def,
        hstep_up hcase]
    rw [hstA]
    have hfield_as : (a + (a + P)) / 2 = a + K := hmid_eq
    have hfield_off : rank1_from_range (pre ++ (frag ++ rest)) (i * S.length + cntLT S a)
        (i * S.length + cntLT S a + off + 1) - 1
        = (S.take idx0).countP (fun x => decide (a + K ≤ x ∧ x < a + K + K)) := by
      have e2 : i * S.length + cntLT S a + off + 1 = pre.length + (off + 1) := by omega
      rw [e2, e1, rank1_from_range_part pre frag rest (off + 1) (by omega), hfrag_def,
        fragment_take_count1]
      simp only [hmid_eq]
      rw [← hoffsucc, hsegfilter, ← filter_take_eq, List.countP_filter, hpIn_def]
      rw [countP_upper_and (S.take (idx0 + 1)) a (a + K) (a + P) (by omega)]
      have hEe : ∀ x : ℕ, (decide (a + K ≤ x ∧ x < a + P)) = (decide (a + K ≤ x ∧ x < a + K + K)) := by
        intro x
        have : a + P = a + K + K := by omega
        rw [this]
      rw [countP_ext_mem _ _ _ (fun x _ => hEe x)]
      have hlast : (S.take (idx0 + 1)).countP (fun x => decide (a + K ≤ x ∧ x < a + K + K))
          = (S.take idx0).countP (fun x => decide (a + K ≤ x ∧ x < a + K + K)) + 1 := by
        rw [countP_take_succ S _ idx0 s hget]
        have : decide (a + K ≤ s ∧ s < a + K + K) = true := decide_eq_true ⟨hcase, by omega⟩
        rw [this]
        simp
      rw [hlast]
      omega
    have hfield_ae : a + P = a + K + K := by omega
    have hfield_rs : cntLT S a + rank0_from_range (pre ++ (frag ++ rest))
        (i * S.length + cntLT S a) (i * S.length + cntLT S (a + P)) = cntLT S (a + K) := by
      have e4 : i * S.length + cntLT S (a + P) = pre.length + frag.length := by omega
      rw [e1, e4, rank0_from_range_exact pre frag rest, hfrag_def, fragment_count0]
      simp only [hmid_eq]
      rw [hsegfilter, List.countP_filter, hpIn_def]
      rw [countP_lower_and S a (a + K) (a + P) (by omega)]
      have : S.countP (fun x => decide (a ≤ x ∧ x < a + K)) = cntIn S a (a + K) := rfl
      rw [this]
      have u1 := cntLT_split S a (a + K) (by omega)
      omega
    rw [hfield_as, hfield_off, hfield_rs, hfield_ae]

lemma decode_loop_eq (S : List ℕ) (w idx0 : ℕ) (hw : w ≤ 63) (hidx : idx0 < S.length)
    (hS : ∀ x ∈ S, x < 2 ^ w) :
    ∀ i, i ≤ w →
      (List.range i).foldlM
          (fun st j => WaveletTree.decode_step ⟨build_wavelet_tree S w, w⟩ S.length j st)
          (decode_state_at S w idx0 0)
        = some (decode_state_at S w idx0 i) := by
  intro i
  induction i with
  | zero => intro _; rfl
  | succ m ih =>
    intro hm
    rw [List.range_succ, foldlM_append_opt, ih (by omega)]
    simp only [Option.some_bind, List.foldlM_cons, List.foldlM_nil]
    rw [decode_step_eq S w idx0 m hw (by omega) hidx hS]
    rfl

lemma built_tree_len (S : List ℕ) (w : ℕ) (hw1 : 1 ≤ w) (hw : w ≤ 63)
    (hS : ∀ x ∈ S, x < 2 ^ w) :
    (⟨build_wavelet_tree S w, w⟩ : WaveletTree).len = S.length := by
  show (build_wavelet_tree S w).length / w = S.length
  rw [build_length S w hw hS]
  exact Nat.mul_div_cancel_left _ (by omega)

lemma decode_one_built (S : List ℕ) (w idx0 : ℕ) (hw1 : 1 ≤ w) (hw : w ≤ 63)
    (hidx : idx0 < S.length) (hS : ∀ x ∈ S, x < 2 ^ w) :
    (⟨build_wavelet_tree S w, w⟩ : WaveletTree).decode_one idx0 = some (S.getD idx0 0) := by
  have hsw : S.getD idx0 0 < 2 ^ w := by
    obtain ⟨hlt, heq⟩ := List.getElem?_eq_some.mp (getD_getElem? S idx0 hidx)
    rw [← heq]
    exact hS _ (List.getElem_mem hlt)
  have hlen := built_tree_len S w hw1 hw hS
  have hinit : ({ offset := idx0, alphabet_start := 0, alphabet_end := pow2u64 w,
                  range_start := 0, range_end := S.length } : DecodeState)
      = decode_state_at S w idx0 0 := by
    unfold decode_state_at
    simp only [DecodeState.mk.injEq, Nat.sub_zero]
    have hdiv0 : S.getD idx0 0 / 2 ^ w = 0 := Nat.div_eq_of_lt hsw
    refine ⟨?_, ?_, ?_, ?_, ?_⟩
    · simp only [hdiv0, Nat.mul_zero, Nat.zero_add]
      have hall : ∀ x ∈ S.take idx0, (fun x => decide (0 ≤ x ∧ x < 2 ^ w)) x = true := by
        intro x hx
        have hxS : x ∈ S := List.mem_of_mem_take hx
        exact decide_eq_true ⟨Nat.zero_le x, hS x hxS⟩
      rw [List.countP_eq_length.mpr hall, List.length_take]
      omega
    · simp only [hdiv0, Nat.mul_zero]
    · simp only [hdiv0, Nat.mul_zero, Nat.zero_add]
      exact (pow2u64_eq_of_le63 w hw)
    · simp only [hdiv0, Nat.mul_zero]
      exact (cntLT_zero S).symm
    · simp only [hdiv0, Nat.mul_zero, Nat.zero_add]
      exact (cntLT_all S (2 ^ w) hS).symm
  have hloop := decode_loop_eq S w idx0 hw hidx hS w (Nat.le_refl w)
  unfold WaveletTree.decode_one
  rw [hlen]
  have hnum : (⟨build_wavelet_tree S w, w⟩ : WaveletTree).num_layers = w := rfl
  rw [hnum, hinit, hloop]
  have hfin_as : (decode_state_at S w idx0 w).alphabet_start = S.getD idx0 0 := by
    unfold decode_state_at
    simp only [Nat.sub_self, pow_zero, Nat.one_mul, Nat.div_one]
  have hfin_ae : (decode_state_at S w idx0 w).alphabet_end = S.getD idx0 0 + 1 := by
    unfold decode_state_at
    simp only [Nat.sub_self, pow_zero, Nat.one_mul, Nat.div_one]
  show (if (decode_state_at S w idx0 w).alphabet_start
        = u64sub (decode_state_at S w idx0 w).alphabet_end 1
      then some (decode_state_at S w idx0 w).alphabet_start else none) = some (S.getD idx0 0)
  rw [hfin_as, hfin_ae]
  have hsub : u64sub (S.getD idx0 0 + 1) 1 = S.getD idx0 0 := by
    rw [u64sub_exact _ 1 (by omega) ?__]
    · omega
    · have h1 : 2 ^ w ≤ 2 ^ 63 := Nat.pow_le_pow_right (by omega) hw
      have h2 := u64_size_val
      have h3 : (2 : ℕ) ^ 63 = 9223372036854775808 := by norm_num
      omega
  rw [hsub, if_pos rfl]

lemma decode_built (S : List ℕ) (w : ℕ) (hw1 : 1 ≤ w) (hw : w ≤ 63)
    (hS : ∀ x ∈ S, x < 2 ^ w) :
    (⟨build_wavelet_tree S w, w⟩ : WaveletTree).decode = some S := by
  unfold WaveletTree.decode
  rw [built_tree_len S w hw1 hw hS]
  apply mapM_range_eq
  intro k hk
  rw [decode_one_built S w k hw1 hw hk hS]
  exact (getD_getElem? S k hk).symm

/-- C1 (amended: width 64, which the log-array format also permits, is
excluded — there `2^w` wraps to 0, the built buffer is empty and the
round-trip fails; see the counterexample): for widths 1..63, a tree built
from `S` and assembled by `from_parts` has `len = |S|`, `decode_one i`
returns `S[i]` for every `i < |S|` with the final interval assertion
passing (a `some` result means exactly that the alphabet interval shrank
to the single returned value), and `decode` returns `S`. -/
theorem wavelet_decode_roundtrip (S : List ℕ) (w : ℕ) (hw1 : 1 ≤ w) (hw : w ≤ 63)
    (hS : ∀ x ∈ S, x < 2 ^ w) :
    WaveletTree.from_parts (build_wavelet_tree S w) w = .ok ⟨build_wavelet_tree S w, w⟩ ∧
    (⟨build_wavelet_tree S w, w⟩ : WaveletTree).len = S.length ∧
    (∀ i, i < S.length →
      (⟨build_wavelet_tree S w, w⟩ : WaveletTree).decode_one i = S[i]?) ∧
    (⟨build_wavelet_tree S w, w⟩ : WaveletTree).decode = some S := by
  refine ⟨?_, built_tree_len S w hw1 hw hS, ?_, decode_built S w hw1 hw hS⟩
  · unfold WaveletTree.from_parts
    rw [if_neg (by omega), if_neg ?__]
    simp only [ne_eq, Decidable.not_not]
    rw [build_length S w hw hS]
    exact Nat.mul_mod_right w S.length
  · intro i hi
    rw [decode_one_built S w i hw1 hw hi hS]
    exact (getD_getElem? S i hi).symm

/-- Witness for C1 on the repository's own round-trip test vector. -/
theorem wavelet_decode_roundtrip_witness :
    ((1 ≤ 5 ∧ 5 ≤ 63) ∧ ∀ x ∈ [21, 1, 30, 13, 23, 21, 3, 0, 21, 21, 12, 11], x < 2 ^ 5) ∧
    (⟨build_wavelet_tree [21, 1, 30, 13, 23, 21, 3, 0, 21, 21, 12, 11] 5, 5⟩ : WaveletTree).decode
      = some [21, 1, 30, 13, 23, 21, 3, 0, 21, 21, 12, 11] :=
  ⟨⟨⟨by decide, by decide⟩, by decide⟩,
   (wavelet_decode_roundtrip [21, 1, 30, 13, 23, 21, 3, 0, 21, 21, 12, 11] 5
     (by decide) (by decide) (by decide)).2.2.2⟩

/-- Counterexample to C1 as stated: at width 64 the built buffer is empty
(the `usize` power `2^64` wraps to 0), `from_parts` still succeeds, and the
resulting tree has `len() = 0` instead of `n = 1`. -/
theorem wavelet_decode_roundtrip_width64_cex :
    build_wavelet_tree [0] 64 = [] ∧
    WaveletTree.from_parts (build_wavelet_tree [0] 64) 64 = .ok ⟨[], 64⟩ ∧
    (⟨[], 64⟩ : WaveletTree).len = 0 ∧ (0 : ℕ) ≠ [0].length := by
  have h := build_eq_nil_of_ge64 [0] 64 (Nat.le_refl _)
  refine ⟨h, ?_, rfl, by decide⟩
  rw [h]
  rfl

/-- C5 (amended: widths up to 63 — at width 64, also permitted by the
log-array format, the `usize` power `2^w` wraps to 0 and the finished
buffer is empty rather than of length `n·w`; see the counterexample):
the builder emits, for each layer `i` and fragment `f` in lexicographic
`(layer, fragment, stream-position)` order with `step = 2^w / 2^i`,
exactly one bit `x ≥ mid` per source symbol `x` in
`[step·f, step·(f+1))`, and the finished buffer has length `n·w`. -/
theorem build_bits_layout (S : List ℕ) (w : ℕ) (hw : w ≤ 63) (hS : ∀ x ∈ S, x < 2 ^ w) :
    build_wavelet_tree S w = build_wavelet_tree_spec S w ∧
    (build_wavelet_tree S w).length = S.length * w := by
  constructor
  · rw [build_eq_layers S w hw, build_spec_eq_layers]
  · rw [build_length S w hw hS]
    ring

/-- Witness for C5 at a concrete input. -/
theorem build_bits_layout_witness :
    ((2 ≤ 63) ∧ ∀ x ∈ [2, 0, 3, 1], x < 2 ^ 2) ∧
    (build_wavelet_tree [2, 0, 3, 1] 2 = build_wavelet_tree_spec [2, 0, 3, 1] 2 ∧
     (build_wavelet_tree [2, 0, 3, 1] 2).length = [2, 0, 3, 1].length * 2) :=
  ⟨⟨by decide, by decide⟩, build_bits_layout [2, 0, 3, 1] 2 (by decide) (by decide)⟩

/-- Counterexample to C5 as stated: at width 64 the built buffer is empty,
not of length `n·w`. -/
theorem build_bits_layout_width64_cex :
    build_wavelet_tree [0] 64 = [] ∧ (build_wavelet_tree [0] 64).length ≠ [0].length * 64 := by
  have h := build_eq_nil_of_ge64 [0] 64 (Nat.le_refl _)
  exact ⟨h, by rw [h]; decide⟩

/-! Closed form of the `lookup` loop on built trees. -/

/-- The `(bit, start, end)` triple that `lookup v` pushes at layer `j` of a
tree built from `S` at width `w`. -/
def slice_at (S : List ℕ) (w v j : ℕ) : Bool × ℕ × ℕ :=
  (decide ((2 ^ (w - j) * (v / 2 ^ (w - j)) + (2 ^ (w - j) * (v / 2 ^ (w - j)) + 2 ^ (w - j))) / 2 ≤ v),
   j * S.length + cntLT S (2 ^ (w - j) * (v / 2 ^ (w - j))),
   j * S.length + cntLT S (2 ^ (w - j) * (v / 2 ^ (w - j)) + 2 ^ (w - j)))

/-- Closed form of the `lookup` loop state after `i` surviving layers. -/
def lookup_state_at (S : List ℕ) (w v i : ℕ) : LookupState :=
  { alphabet_start := 2 ^ (w - i) * (v / 2 ^ (w - i))
    alphabet_end := 2 ^ (w - i) * (v / 2 ^ (w - i)) + 2 ^ (w - i)
    start_index := cntLT S (2 ^ (w - i) * (v / 2 ^ (w - i)))
    end_index := cntLT S (2 ^ (w - i) * (v / 2 ^ (w - i)) + 2 ^ (w - i))
    slices := (List.range i).map (slice_at S w v) }

lemma lookup_step_reduce_true (t : WaveletTree) (v width i : ℕ) (st : LookupState)
    (hb : (st.alphabet_start + st.alphabet_end) % u64_size / 2 ≤ v) :
    t.lookup_step v width i st =
      (if st.start_index + rank0_from_range t.bits (i * width + st.start_index)
            (i * width + st.end_index) = st.end_index
       then none
       else some
        { alphabet_start := (st.alphabet_start + pow2u64 (t.num_layers - i - 1)) % u64_size
          alphabet_end := st.alphabet_end
          start_index := st.start_index + rank0_from_range t.bits (i * width + st.start_index)
            (i * width + st.end_index)
          end_index := st.end_index
          slices := st.slices ++ [(true, i * width + st.start_index, i * width + st.end_index)] }) := by
  unfold WaveletTree.lookup_step
  simp only [decide_eq_true hb, if_true, ite_true]

lemma lookup_step_reduce_false (t : WaveletTree) (v width i : ℕ) (st : LookupState)
    (hb : ¬ ((st.alphabet_start + st.alphabet_end) % u64_size / 2 ≤ v)) :
    t.lookup_step v width i st =
      (if st.start_index
            = st.end_index - rank1_from_range t.bits (i * width + st.start_index)
                (i * width + st.end_index)
       then none
       else some
        { alphabet_start := st.alphabet_start
          alphabet_end := u64sub st.alphabet_end (pow2u64 (t.num_layers - i - 1))
          start_index := st.start_index
          end_index := st.end_index - rank1_from_range t.bits (i * width + st.start_index)
            (i * width + st.end_index)
          slices := st.slices ++ [(false, i * width + st.start_index, i * width + st.end_index)] }) := by
  unfold WaveletTree.lookup_step
  simp only [decide_eq_false hb, Bool.false_eq_true, if_false, ite_false]

/-- One `lookup` iteration on a built tree: from the closed-form state at
layer `i` it returns `none` exactly when `v`'s half-interval at layer
`i + 1` holds no symbol of `S`, and otherwise the closed-form state at
layer `i + 1`. -/
lemma lookup_step_cases (S : List ℕ) (w v i : ℕ) (hw : w ≤ 63) (hi : i < w)
    (hv : v < 2 ^ w) (hS : ∀ x ∈ S, x < 2 ^ w) :
    (cntIn S (2 ^ (w - (i + 1)) * (v / 2 ^ (w - (i + 1))))
        (2 ^ (w - (i + 1)) * (v / 2 ^ (w - (i + 1))) + 2 ^ (w - (i + 1))) = 0 →
      WaveletTree.lookup_step ⟨build_wavelet_tree S w, w⟩ v S.length i
        (lookup_state_at S w v i) = none) ∧
    (cntIn S (2 ^ (w - (i + 1)) * (v / 2 ^ (w - (i + 1))))
        (2 ^ (w - (i + 1)) * (v / 2 ^ (w - (i + 1))) + 2 ^ (w - (i + 1))) ≠ 0 →
      WaveletTree.lookup_step ⟨build_wavelet_tree S w, w⟩ v S.length i
        (lookup_state_at S w v i) = some (lookup_state_at S w v (i + 1))) := by
  have hwi : w - i = (w - i - 1) + 1 := by omega
  have hw1 : w - (i + 1) = w - i - 1 := by omega
  set K := 2 ^ (w - i - 1) with hK_def
  set P := 2 ^ (w - i) with hP_def
  have hK0 : 0 < K := by rw [hK_def]; exact pow_pos (by omega) _
  have hPK : P = 2 * K := by
    have h1 : 2 ^ ((w - i - 1) + 1) = 2 ^ (w - i - 1) * 2 := pow_succ 2 (w - i - 1)
    have h2 : (w - i - 1) + 1 = w - i := by omega
    rw [h2] at h1
    rw [hP_def, hK_def, h1]
    ring
  set f := v / P with hf_def
  set a := P * f with ha_def
  have hint : a ≤ v ∧ v < a + P := by
    rw [ha_def, hf_def]
    exact div_interval v P (by rw [hP_def]; exact pow_pos (by omega) _)
  have hmid_eq : (a + (a + P)) / 2 = a + K := by omega
  have hflt : f < 2 ^ i := by
    rw [hf_def]
    rw [Nat.div_lt_iff_lt_mul (by rw [hP_def]; exact pow_pos (by omega) _)]
    calc v < 2 ^ w := hv
      _ = 2 ^ i * P := by rw [hP_def, ← pow_add]; congr 1; omega
  have haP : a + P ≤ 2 ^ w := by
    have h1 : P * (f + 1) ≤ P * 2 ^ i := Nat.mul_le_mul_left P hflt
    have h2 : P * 2 ^ i = 2 ^ w := by rw [hP_def, ← pow_add]; congr 1; omega
    have h3 : P * (f + 1) = a + P := by rw [ha_def]; ring
    omega
  obtain ⟨pre, rest, hB, hpre⟩ := build_decomp S w i f hw hi hflt hS
  have hfe : P * (f + 1) = a + P := by rw [ha_def]; ring
  rw [hfe] at hB
  rw [← hP_def, ← ha_def] at hB hpre
  set frag := fragment_bits S a (a + P) with hfrag_def
  set pIn : ℕ → Bool := fun x => decide (a ≤ x ∧ x < a + P) with hpIn_def
  have hsegfilter : seg S a (a + P) = S.filter pIn := by rw [hpIn_def]; rfl
  have hfraglen : frag.length = cntIn S a (a + P) := by
    rw [hfrag_def, fragment_bits_eq_seg, List.length_map, seg_length]
  have hcnt1 : cntLT S (a + P) = cntLT S a + cntIn S a (a + P) :=
    cntLT_split S a (a + P) (by omega)
  have hspl1 : cntLT S (a + K) = cntLT S a + cntIn S a (a + K) :=
    cntLT_split S a (a + K) (by omega)
  have hspl2 : cntLT S (a + P) = cntLT S (a + K) + cntIn S (a + K) (a + P) := by
    have u1 := cntLT_split S (a + K) (a + P) (by omega)
    omega
  have hstep_up : a + K ≤ v → K * (v / K) = a + K := by
    intro hc
    have h2 := div_pow_step_up v (w - i - 1)
    rw [← hwi, ← hP_def, ← hK_def, ← hf_def, ← ha_def] at h2
    exact h2 hc
  have hstep_down : v < a + K → K * (v / K) = a := by
    intro hc
    have h2 := div_pow_step_down v (w - i - 1)
    rw [← hwi, ← hP_def, ← hK_def, ← hf_def, ← ha_def] at h2
    exact h2 hc
  have e1 : i * S.length + cntLT S a = pre.length := by omega
  have e4 : i * S.length + cntLT S (a + P) = pre.length + frag.length := by omega
  have hrank0_eq : rank0_from_range (pre ++ (frag ++ rest)) (i * S.length + cntLT S a)
      (i * S.length + cntLT S (a + P)) = cntIn S a (a + K) := by
    rw [e1, e4, rank0_from_range_exact pre frag rest, hfrag_def, fragment_count0]
    simp only [hmid_eq]
    rw [hsegfilter, List.countP_filter, hpIn_def]
    rw [countP_lower_and S a (a + K) (a + P) (by omega)]
    rfl
  have hrank1_eq : rank1_from_range (pre ++ (frag ++ rest)) (i * S.length + cntLT S a)
      (i * S.length + cntLT S (a + P)) = cntIn S (a + K) (a + P) := by
    rw [e1, e4, rank1_from_range_exact pre frag rest, hfrag_def, fragment_count1]
    simp only [hmid_eq]
    rw [hsegfilter, List.countP_filter, hpIn_def]
    rw [countP_upper_and S a (a + K) (a + P) (by omega)]
    rfl
  have hproj_as : (lookup_state_at S w v i).alphabet_start = a := rfl
  have hproj_ae : (lookup_state_at S w v i).alphabet_end = a + P := rfl
  have hproj_si : (lookup_state_at S w v i).start_index = cntLT S a := rfl
  have hproj_ei : (lookup_state_at S w v i).end_index = cntLT S (a + P) := rfl
  have hproj_sl : (lookup_state_at S w v i).slices = (List.range i).map (slice_at S w v) := rfl
  have hnuml : (⟨pre ++ (frag ++ rest), w⟩ : WaveletTree).num_layers = w := rfl
  have hbits_red : (⟨pre ++ (frag ++ rest), w⟩ : WaveletTree).bits = pre ++ (frag ++ rest) := rfl
  have hpowK : pow2u64 (w - i - 1) = K := by
    rw [pow2u64_eq_of_le63 _ (by omega), hK_def]
  have hmod_sum : (a + (a + P)) % u64_size = a + (a + P) := by
    apply Nat.mod_eq_of_lt
    have h1 : 2 ^ w ≤ 2 ^ 63 := Nat.pow_le_pow_right (by omega) hw
    have h2 := u64_size_val
    have h3 : (2 : ℕ) ^ 63 = 9223372036854775808 := by norm_num
    omega
  rw [hB]
  rcases Nat.lt_or_ge v (a + K) with hcase | hcase
  · -- lower half chosen; next interval is [a, a + K)
    have hup : 2 ^ (w - (i + 1)) * (v / 2 ^ (w - (i + 1))) = a := by
      rw [hw1, ← hK_def]
      exact hstep_down hcase
    have hb : ((lookup_state_at S w v i).alphabet_start
        + (lookup_state_at S w v i).alphabet_end) % u64_size / 2 ≤ v → False := by
      rw [hproj_as, hproj_ae, hmod_sum, hmid_eq]
      omega
    rw [lookup_step_reduce_false ⟨pre ++ (frag ++ rest), w⟩ v S.length i _ hb]
    rw [hnuml, hbits_red, hproj_as, hproj_ae, hproj_si, hproj_ei, hproj_sl, hpowK,
      hrank1_eq, hup, hw1, ← hK_def]
    constructor
    · intro h0
      rw [if_pos (by omega)]
    · intro h0
      rw [if_neg (by omega)]
      have hstA : lookup_state_at S w v (i + 1)
          = ⟨a, a + K, cntLT S a, cntLT S (a + K),
              (List.range (i + 1)).map (slice_at S w v)⟩ := by
        unfold lookup_state_at
        rw [hw1, ← hK_def, hstep_down hcase]
      rw [hstA]
      have hsl : slice_at S w v i
          = (false, i * S.length + cntLT S a, i * S.length + cntLT S (a + P)) := by
        unfold slice_at
        rw [← hP_def, ← hf_def, ← ha_def, hmid_eq]
        rw [decide_eq_false (by omega)]
      have hslices : (List.range i).map (slice_at S w v)
            ++ [(false, i * S.length + cntLT S a, i * S.length + cntLT S (a + P))]
          = (List.range (i + 1)).map (slice_at S w v) := by
        rw [List.range_succ, List.map_append, List.map_cons, List.map_nil, hsl]
      rw [hslices]
      have hsub : u64sub (a + P) K = a + K := by
        rw [u64sub_exact (a + P) K (by omega) ?__]
        · omega
        · have h1 : 2 ^ w ≤ 2 ^ 63 := Nat.pow_le_pow_right (by omega) hw
          have h2 := u64_size_val
          have h3 : (2 : ℕ) ^ 63 = 9223372036854775808 := by norm_num
          omega
      rw [hsub]
      rw [show cntLT S (a + P) - cntIn S (a + K) (a + P) = cntLT S (a + K) from by omega]
  · -- upper half chosen; next interval is [a + K, a + 2K)
    have hup : 2 ^ (w - (i + 1)) * (v / 2 ^ (w - (i + 1))) = a + K := by
      rw [hw1, ← hK_def]
      exact hstep_up hcase
    have hb : ((lookup_state_at S w v i).alphabet_start
        + (lookup_state_at S w v i).alphabet_end) % u64_size / 2 ≤ v := by
      rw [hproj_as, hproj_ae, hmod_sum, hmid_eq]
      omega
    rw [lookup_step_reduce_true ⟨pre ++ (frag ++ rest), w⟩ v S.length i _ hb]
    rw [hnuml, hbits_red, hproj_as, hproj_ae, hproj_si, hproj_ei, hproj_sl, hpowK,
      hrank0_eq, hup, hw1, ← hK_def]
    constructor
    · intro h0
      rw [show a + K + K = a + P from by omega] at h0
      rw [if_pos (by omega)]
    · intro h0
      rw [show a + K + K = a + P from by omega] at h0
      rw [if_neg (by omega)]
      have hstA : lookup_state_at S w v (i + 1)
          = ⟨a + K, a + K + K, cntLT S (a + K), cntLT S (a + K + K),
              (List.range (i + 1)).map (slice_at S w v)⟩ := by
        unfold lookup_state_at
        rw [hw1, ← hK_def, hstep_up hcase]
      rw [hstA]
      have hsl : slice_at S w v i
          = (true, i * S.length + cntLT S a, i * S.length + cntLT S (a + P)) := by
        unfold slice_at
        rw [← hP_def, ← hf_def, ← ha_def, hmid_eq]
        rw [decide_eq_true hcase]
      have hslices : (List.range i).map (slice_at S w v)
            ++ [(true, i * S.length + cntLT S a, i * S.length + cntLT S (a + P))]
          = (List.range (i + 1)).map (slice_at S w v) := by
        rw [List.range_succ, List.map_append, List.map_cons, List.map_nil, hsl]
      rw [hslices]
      have hmod : (a + K) % u64_size = a + K := by
        apply Nat.mod_eq_of_lt
        have h1 : 2 ^ w ≤ 2 ^ 63 := Nat.pow_le_pow_right (by omega) hw
        have h2 := u64_size_val
        have h3 : (2 : ℕ) ^ 63 = 9223372036854775808 := by norm_num
        omega
      rw [hmod]
      have he2 : a + P = a + K + K := by omega
      rw [he2]
      rw [show cntLT S a + cntIn S a (a + K) = cntLT S (a + K) from by omega]

lemma lookup_init_eq (S : List ℕ) (w v : ℕ) (hw : w ≤ 63) (hv : v < 2 ^ w)
    (hS : ∀ x ∈ S, x < 2 ^ w) :
    ({ alphabet_start := 0, alphabet_end := pow2u64 w, start_index := 0,
       end_index := S.length, slices := [] } : LookupState) = lookup_state_at S w v 0 := by
  unfold lookup_state_at
  have hdiv0 : v / 2 ^ w = 0 := Nat.div_eq_of_lt hv
  simp only [Nat.sub_zero, hdiv0, Nat.mul_zero, Nat.zero_add, List.range_zero, List.map_nil,
    cntLT_zero, pow2u64_eq_of_le63 w hw, cntLT_all S (2 ^ w) hS]

lemma cntIn_pos_of_mem (S : List ℕ) (v a e : ℕ) (hv : v ∈ S) (h1 : a ≤ v) (h2 : v < e) :
    cntIn S a e ≠ 0 := by
  unfold cntIn
  have h : 0 < S.countP (fun x => decide (a ≤ x ∧ x < e)) :=
    List.countP_pos.mpr ⟨v, hv, decide_eq_true ⟨h1, h2⟩⟩
  omega

lemma lookup_loop_partial (S : List ℕ) (w v : ℕ) (hw : w ≤ 63) (hv : v < 2 ^ w)
    (hS : ∀ x ∈ S, x < 2 ^ w) :
    ∀ i, i ≤ w → ∀ st,
      (List.range i).foldlM
        (fun st j => WaveletTree.lookup_step ⟨build_wavelet_tree S w, w⟩ v S.length j st)
        (lookup_state_at S w v 0) = some st →
      st = lookup_state_at S w v i := by
  intro i
  induction i with
  | zero =>
    intro _ st h
    simp only [List.range_zero, List.foldlM_nil] at h
    exact (Option.some_inj.mp h).symm
  | succ m ih =>
    intro hm st h
    rw [List.range_succ, foldlM_append_opt] at h
    obtain ⟨mid, hmid, hstep⟩ := Option.bind_eq_some.mp h
    have hmid_eq := ih (by omega) mid hmid
    subst hmid_eq
    simp only [List.foldlM_cons, List.foldlM_nil] at hstep
    have hc := lookup_step_cases S w v m hw (by omega) hv hS
    by_cases h0 : cntIn S (2 ^ (w - (m + 1)) * (v / 2 ^ (w - (m + 1))))
        (2 ^ (w - (m + 1)) * (v / 2 ^ (w - (m + 1))) + 2 ^ (w - (m + 1))) = 0
    · rw [hc.1 h0] at hstep
      exact absurd hstep (by simp)
    · rw [hc.2 h0] at hstep
      exact (Option.some_inj.mp hstep).symm

lemma lookup_loop_built (S : List ℕ) (w v : ℕ) (hw : w ≤ 63) (hv : v < 2 ^ w)
    (hvS : v ∈ S) (hS : ∀ x ∈ S, x < 2 ^ w) :
    ∀ i, i ≤ w →
      (List.range i).foldlM
        (fun st j => WaveletTree.lookup_step ⟨build_wavelet_tree S w, w⟩ v S.length j st)
        (lookup_state_at S w v 0) = some (lookup_state_at S w v i) := by
  intro i
  induction i with
  | zero => intro _; rfl
  | succ m ih =>
    intro hm
    rw [List.range_succ, foldlM_append_opt, ih (by omega)]
    simp only [Option.some_bind, List.foldlM_cons, List.foldlM_nil]
    have hc := lookup_step_cases S w v m hw (by omega) hv hS
    have hintv := div_interval v (2 ^ (w - (m + 1))) (pow_pos (by omega) _)
    have h0 : cntIn S (2 ^ (w - (m + 1)) * (v / 2 ^ (w - (m + 1))))
        (2 ^ (w - (m + 1)) * (v / 2 ^ (w - (m + 1))) + 2 ^ (w - (m + 1))) ≠ 0 :=
      cntIn_pos_of_mem S v _ _ hvS hintv.1 hintv.2
    rw [hc.2 h0]
    rfl

/-- A `lookup` on a tree built from `S` (width 1..63) for a symbol of `S`
returns exactly the slice whose triples are the closed-form per-layer
ranges. -/
lemma lookup_built (S : List ℕ) (w v : ℕ) (hw1 : 1 ≤ w) (hw : w ≤ 63) (hv : v < 2 ^ w)
    (hvS : v ∈ S) (hS : ∀ x ∈ S, x < 2 ^ w) :
    (⟨build_wavelet_tree S w, w⟩ : WaveletTree).lookup v
      = some ⟨v, ⟨build_wavelet_tree S w, w⟩, (List.range w).map (slice_at S w v)⟩ := by
  unfold WaveletTree.lookup
  rw [built_tree_len S w hw1 hw hS]
  rw [lookup_init_eq S w v hw hv hS]
  have hnum : (⟨build_wavelet_tree S w, w⟩ : WaveletTree).num_layers = w := rfl
  rw [hnum, lookup_loop_built S w v hw hv hvS hS w (Nat.le_refl w)]
  rfl

lemma lookup_loop_none (S : List ℕ) (w v : ℕ) (hw1 : 1 ≤ w) (hw : w ≤ 63) (hv : v < 2 ^ w)
    (hvNS : v ∉ S) (hS : ∀ x ∈ S, x < 2 ^ w) :
    (List.range w).foldlM
      (fun st j => WaveletTree.lookup_step ⟨build_wavelet_tree S w, w⟩ v S.length j st)
      (lookup_state_at S w v 0) = none := by
  have hr : List.range w = List.range (w - 1) ++ [w - 1] := by
    conv_lhs => rw [show w = (w - 1) + 1 from by omega]
    rw [List.range_succ]
  rw [hr, foldlM_append_opt]
  cases hmid : (List.range (w - 1)).foldlM
      (fun st j => WaveletTree.lookup_step ⟨build_wavelet_tree S w, w⟩ v S.length j st)
      (lookup_state_at S w v 0) with
  | none => rfl
  | some st =>
    have hst := lookup_loop_partial S w v hw hv hS (w - 1) (by omega) st hmid
    subst hst
    simp only [Option.some_bind, List.foldlM_cons, List.foldlM_nil]
    have hc := lookup_step_cases S w v (w - 1) hw (by omega) hv hS
    have h0 : cntIn S (2 ^ (w - (w - 1 + 1)) * (v / 2 ^ (w - (w - 1 + 1))))
        (2 ^ (w - (w - 1 + 1)) * (v / 2 ^ (w - (w - 1 + 1))) + 2 ^ (w - (w - 1 + 1))) = 0 := by
      rw [show w - (w - 1 + 1) = 0 from by omega]
      simp only [pow_zero, Nat.one_mul, Nat.div_one]
      unfold cntIn
      rw [List.countP_eq_zero]
      intro x hx
      simp only [decide_eq_true_eq, not_and, not_lt]
      intro h1
      by_contra h2
      have : x = v := by omega
      exact hvNS (this ▸ hx)
    rw [hc.1 h0]
    rfl

lemma lookup_none_of_absent (S : List ℕ) (w v : ℕ) (hw1 : 1 ≤ w) (hw : w ≤ 63)
    (hv : v < 2 ^ w) (hvNS : v ∉ S) (hS : ∀ x ∈ S, x < 2 ^ w) :
    (⟨build_wavelet_tree S w, w⟩ : WaveletTree).lookup v = none := by
  unfold WaveletTree.lookup
  rw [built_tree_len S w hw1 hw hS]
  rw [lookup_init_eq S w v hw hv hS]
  have hnum : (⟨build_wavelet_tree S w, w⟩ : WaveletTree).num_layers = w := rfl
  rw [hnum, lookup_loop_none S w v hw1 hw hv hvNS hS]

lemma lookup_empty_none (w v : ℕ) (hw1 : 1 ≤ w) :
    (⟨[], w⟩ : WaveletTree).lookup v = none := by
  have hlen0 : (⟨[], w⟩ : WaveletTree).len = 0 := by
    unfold WaveletTree.len
    simp
  unfold WaveletTree.lookup
  rw [hlen0]
  have hnum : (⟨[], w⟩ : WaveletTree).num_layers = w := rfl
  rw [hnum]
  have hr : List.range w = 0 :: List.range' 1 (w - 1) := by
    rw [List.range_eq_range']
    conv_lhs => rw [show w = (w - 1) + 1 from by omega]
    rw [List.range'_succ]
  rw [hr, List.foldlM_cons]
  have hstep : WaveletTree.lookup_step ⟨[], w⟩ v 0 0
      { alphabet_start := 0, alphabet_end := pow2u64 w, start_index := 0,
        end_index := 0, slices := [] } = none := by
    by_cases hb : ((0 : ℕ) + pow2u64 w) % u64_size / 2 ≤ v
    · rw [lookup_step_reduce_true ⟨[], w⟩ v 0 0 _ hb]
      have hc : (0 : ℕ) + rank0_from_range [] (0 * 0 + 0) (0 * 0 + 0) = 0 := by
        simp [rank0_from_range, rank0, rank1]
      rw [if_pos hc]
    · rw [lookup_step_reduce_false ⟨[], w⟩ v 0 0 _ hb]
      have hc : (0 : ℕ) = 0 - rank1_from_range [] (0 * 0 + 0) (0 * 0 + 0) := by
        simp [rank1_from_range, rank1]
      rw [if_pos hc]
  rw [hstep]
  rfl

lemma from_parts_ok_inv (bits : List Bool) (nl : ℕ) (t : WaveletTree)
    (h : WaveletTree.from_parts bits nl = .ok t) :
    t = ⟨bits, nl⟩ ∧ nl ≠ 0 ∧ bits.length % nl = 0 := by
  by_cases h0 : nl = 0
  · simp [WaveletTree.from_parts, h0] at h
  · by_cases h1 : bits.length % nl = 0
    · simp only [WaveletTree.from_parts, if_neg h0, h1, ne_eq, not_true_eq_false,
        if_false, ite_false, Except.ok.injEq] at h
      exact ⟨h.symm, h0, h1⟩
    · simp [WaveletTree.from_parts, h0, h1] at h

/-- C3 (amended: restricted to symbols inside the alphabet `[0, 2^w)` —
for `v ≥ 2^w` the loop can follow the rightmost path and return a spurious
slice, see the counterexample): on a tree built from `S`, `lookup v`
returns the explicit absent result `none` for every in-alphabet `v` that
does not occur in `S`. -/
theorem wavelet_lookup_absent_in_alphabet (S : List ℕ) (w v : ℕ) (hw1 : 1 ≤ w)
    (hS : ∀ x ∈ S, x < 2 ^ w) (hv : v < 2 ^ w) (hvNS : v ∉ S) (t : WaveletTree)
    (hT : WaveletTree.from_parts (build_wavelet_tree S w) w = .ok t) :
    t.lookup v = none := by
  obtain ⟨ht, -, -⟩ := from_parts_ok_inv _ _ _ hT
  subst ht
  rcases Nat.lt_or_ge w 64 with h64 | h64
  · exact lookup_none_of_absent S w v hw1 (by omega) hv hvNS hS
  · rw [build_eq_nil_of_ge64 S w h64]
    exact lookup_empty_none w v hw1

/-- Witness for C3 at a concrete input: symbol 0 is inside the width-1
alphabet but absent from `S = [1]`, so its lookup is `none`. -/
theorem wavelet_lookup_absent_witness :
    ((1 ≤ 1 ∧ ∀ x ∈ [1], x < 2 ^ 1) ∧ ((0 : ℕ) < 2 ^ 1 ∧ (0 : ℕ) ∉ [1]) ∧
      WaveletTree.from_parts (build_wavelet_tree [1] 1) 1 = .ok ⟨[true], 1⟩) ∧
    (⟨[true], 1⟩ : WaveletTree).lookup 0 = none := by
  have hb : build_wavelet_tree [1] 1 = [true] := by decide
  have hT : WaveletTree.from_parts (build_wavelet_tree [1] 1) 1 = .ok ⟨[true], 1⟩ := by
    rw [hb]
    rfl
  exact ⟨⟨⟨by decide, by decide⟩, ⟨by decide, by decide⟩, hT⟩,
    wavelet_lookup_absent_in_alphabet [1] 1 0 (by decide) (by decide) (by decide) (by decide)
      ⟨[true], 1⟩ hT⟩

/-- Counterexample to C3 as stated: on the tree built from `S = [1]` at
width 1, the out-of-alphabet symbol `v = 2` is not in `S`, yet `lookup 2`
returns a slice (the loop clamps `v` onto the rightmost inhabited path). -/
theorem wavelet_lookup_out_of_alphabet_cex :
    build_wavelet_tree [1] 1 = [true] ∧
    WaveletTree.from_parts [true] 1 = .ok ⟨[true], 1⟩ ∧
    (2 : ℕ) ∉ [1] ∧
    ((⟨[true], 1⟩ : WaveletTree).lookup 2).isSome = true :=
  ⟨by decide, rfl, by decide, by decide⟩

/-! Correctness of the modelled select over bit lists. -/

lemma beqT_of_eq {b v : Bool} (h : b = v) : (b == v) = true := by
  subst h
  cases b <;> rfl

lemma beqF_of_ne {b v : Bool} (h : ¬b = v) : (b == v) = false := by
  cases b <;> cases v <;> first | rfl | exact absurd rfl h

lemma select_bit_of_position (v : Bool) :
    ∀ (l : List Bool) (p : ℕ), l[p]? = some v →
      select_bit v l ((l.take p).countP (fun x => x == v) + 1) = some p := by
  intro l
  induction l with
  | nil => intro p h; simp at h
  | cons b tl ih =>
    intro p h
    cases p with
    | zero =>
      have hb : b = v := by
        rw [List.getElem?_cons_zero] at h
        exact Option.some_inj.mp h
      simp only [List.take_zero, List.countP_nil, Nat.zero_add]
      rw [select_bit, if_pos hb, if_pos rfl]
    | succ q =>
      rw [List.getElem?_cons_succ] at h
      rw [List.take_succ_cons, List.countP_cons]
      by_cases hb : b = v
      · rw [if_pos (beqT_of_eq hb)]
        rw [show (tl.take q).countP (fun x => x == v) + 1 + 1
            = ((tl.take q).countP (fun x => x == v) + 1) + 1 from rfl]
        rw [select_bit, if_pos hb, if_neg (by omega)]
        rw [ih q h]
        rfl
      · rw [if_neg (by rw [beqF_of_ne hb]; simp), Nat.add_zero]
        rw [show (tl.take q).countP (fun x => x == v) + 1
            = ((tl.take q).countP (fun x => x == v)) + 1 from rfl]
        rw [select_bit, if_neg hb, ih q h]
        rfl

lemma select_bit_append_right (v : Bool) :
    ∀ (Q R : List Bool) (r p : ℕ), select_bit v Q r = some p →
      select_bit v (Q ++ R) r = some p := by
  intro Q
  induction Q with
  | nil =>
    intro R r p h
    cases r with
    | zero => simp [select_bit] at h
    | succ r' => simp [select_bit] at h
  | cons b tl ih =>
    intro R r p h
    cases r with
    | zero => simp [select_bit] at h
    | succ r' =>
      rw [select_bit] at h
      rw [List.cons_append, select_bit]
      by_cases hb : b = v
      · rw [if_pos hb] at h ⊢
        cases hr' : r' with
        | zero =>
          rw [hr', if_pos rfl] at h
          rw [if_pos rfl]
          exact h
        | succ r'' =>
          rw [hr', if_neg (by omega)] at h
          rw [if_neg (by omega)]
          obtain ⟨q, hq, hqp⟩ := Option.map_eq_some'.mp h
          rw [ih R (r'' + 1) q hq]
          rw [← hqp]
          rfl
      · rw [if_neg hb] at h ⊢
        obtain ⟨q, hq, hqp⟩ := Option.map_eq_some'.mp h
        rw [ih R (r' + 1) q hq]
        rw [← hqp]
        rfl

lemma select_bit_append_left (v : Bool) :
    ∀ (P X : List Bool) (r p : ℕ), 1 ≤ r → select_bit v X r = some p →
      select_bit v (P ++ X) (P.countP (fun x => x == v) + r) = some (P.length + p) := by
  intro P
  induction P with
  | nil =>
    intro X r p h1 h
    simpa using h
  | cons b tl ih =>
    intro X r p h1 h
    rw [List.cons_append, List.countP_cons]
    by_cases hb : b = v
    · rw [if_pos (beqT_of_eq hb)]
      rw [show tl.countP (fun x => x == v) + 1 + r
          = (tl.countP (fun x => x == v) + r) + 1 from by omega]
      rw [select_bit, if_pos hb, if_neg (by omega)]
      rw [ih X r p h1 h]
      show some (tl.length + p + 1) = some ((b :: tl).length + p)
      rw [List.length_cons]
      congr 1
      omega
    · rw [if_neg (by rw [beqF_of_ne hb]; simp), Nat.add_zero]
      rw [show tl.countP (fun x => x == v) + r
          = (tl.countP (fun x => x == v) + r - 1) + 1 from by omega]
      rw [select_bit, if_neg hb]
      rw [show (tl.countP (fun x => x == v) + r - 1) + 1
          = tl.countP (fun x => x == v) + r from by omega]
      rw [ih X r p h1 h]
      show some (tl.length + p + 1) = some ((b :: tl).length + p)
      rw [List.length_cons]
      congr 1
      omega

lemma select_bit_app (v : Bool) (P Q R : List Bool) (r p : ℕ) (h1 : 1 ≤ r)
    (hsel : select_bit v Q r = some p) :
    select_bit v (P ++ (Q ++ R)) (P.countP (fun x => x == v) + r) = some (P.length + p) :=
  select_bit_append_left v P (Q ++ R) r p h1 (select_bit_append_right v Q R r p hsel)

/-! Segment view of the rank range queries and success of the range
selects inside populated ranges. -/

/-- Occurrence count of a recorded triple: the rank of its bit over its
range, exactly what `WaveletSlice::len` computes on the last triple. -/
def cntB (B : List Bool) (tr : Bool × ℕ × ℕ) : ℕ :=
  if tr.1 then rank1_from_range B tr.2.1 tr.2.2 else rank0_from_range B tr.2.1 tr.2.2

/-- `WalkChain B rs c` says the reverse walk of `entry` can start on `rs`
with any occurrence rank in `1..c`: the head triple is a well-formed range
of `B` holding at least `c` occurrences of its bit, and the tail can
absorb any rank up to the head's range width. -/
inductive WalkChain (B : List Bool) : List (Bool × ℕ × ℕ) → ℕ → Prop where
  | nil (c : ℕ) : WalkChain B [] c
  | cons (b : Bool) (α β c : ℕ) (rest : List (Bool × ℕ × ℕ))
      (hc : c ≤ cntB B (b, α, β)) (hab : α ≤ β) (hbB : β ≤ B.length)
      (hrest : WalkChain B rest (β - α)) : WalkChain B ((b, α, β) :: rest) c

lemma cntB_true (B : List Bool) (α β : ℕ) :
    cntB B (true, α, β) = rank1_from_range B α β := rfl

lemma cntB_false (B : List Bool) (α β : ℕ) :
    cntB B (false, α, β) = rank0_from_range B α β := rfl

/-- Invariant of the `lookup` layer loop on an arbitrary `from_parts`
tree: after `i` surviving iterations the state has recorded one triple per
layer, keeps a well-ordered range inside `0..len`, its recorded triples
(read back-to-front, as `entry` does) form a capacity chain for the
current range width, and — once at least one layer has run — the range is
non-empty and its width is exactly the occurrence count of the last
recorded triple. -/
lemma lookup_loop_general (t : WaveletTree) (v : ℕ)
    (hdvd : t.bits.length % t.num_layers = 0) (hnl : t.num_layers ≠ 0) :
    ∀ i, i ≤ t.num_layers → ∀ st,
      (List.range i).foldlM (fun st j => t.lookup_step v t.len j st)
        { alphabet_start := 0, alphabet_end := pow2u64 t.num_layers,
          start_index := 0, end_index := t.len, slices := [] } = some st →
      st.slices.length = i ∧
      st.start_index ≤ st.end_index ∧ st.end_index ≤ t.len ∧
      WalkChain t.bits st.slices.reverse (st.end_index - st.start_index) ∧
      (1 ≤ i → st.start_index < st.end_index ∧
        ∀ u, st.slices.getLast? = some u →
          cntB t.bits u = st.end_index - st.start_index) := by
  have hlen_mul : t.num_layers * t.len = t.bits.length := by
    rw [Nat.mul_comm]
    exact Nat.div_mul_cancel (Nat.dvd_of_mod_eq_zero hdvd)
  intro i
  induction i with
  | zero =>
    intro _ st h
    simp only [List.range_zero, List.foldlM_nil] at h
    have hst := (Option.some_inj.mp h).symm
    subst hst
    exact ⟨rfl, Nat.zero_le _, Nat.le_refl _, WalkChain.nil _, by omega⟩
  | succ m ih =>
    intro hm st h
    rw [List.range_succ, foldlM_append_opt] at h
    obtain ⟨mid, hmid, hstep⟩ := Option.bind_eq_some.mp h
    obtain ⟨hslen, hse, hetop, hchain, -⟩ := ih (by omega) mid hmid
    simp only [List.foldlM_cons, List.foldlM_nil] at hstep
    set α := m * t.len + mid.start_index with hα
    set β := m * t.len + mid.end_index with hβ
    clear_value α β
    have hab : α ≤ β := by omega
    have hbB : β ≤ t.bits.length := by
      have h2 : m * t.len + t.len = (m + 1) * t.len := by ring
      have h3 : (m + 1) * t.len ≤ t.num_layers * t.len :=
        Nat.mul_le_mul_right _ (by omega)
      omega
    have hsplit := rank_split_range t.bits α β hab
    by_cases hb : (mid.alphabet_start + mid.alphabet_end) % u64_size / 2 ≤ v
    · rw [lookup_step_reduce_true t v t.len m mid hb] at hstep
      rw [← hα, ← hβ] at hstep
      by_cases h0 : mid.start_index + rank0_from_range t.bits α β = mid.end_index
      · rw [if_pos h0] at hstep
        exact absurd hstep (by simp)
      · rw [if_neg h0] at hstep
        have hst := (Option.some_inj.mp hstep).symm
        subst hst
        have hc0 : rank0_from_range t.bits α β ≤ mid.end_index - mid.start_index := by
          omega
        refine ⟨by simp [hslen], ?_, hetop, ?_, ?_⟩
        · show mid.start_index + rank0_from_range t.bits α β ≤ mid.end_index
          omega
        · show WalkChain t.bits ((mid.slices ++ [(true, α, β)]).reverse)
            (mid.end_index - (mid.start_index + rank0_from_range t.bits α β))
          rw [List.reverse_append]
          simp only [List.reverse_cons, List.reverse_nil, List.nil_append,
            List.cons_append, List.singleton_append]
          refine WalkChain.cons true α β _ mid.slices.reverse ?_ hab hbB ?_
          · rw [cntB_true]
            omega
          · have hwid : β - α = mid.end_index - mid.start_index := by omega
            rw [hwid]
            exact hchain
        · intro _
          refine ⟨?_, ?_⟩
          · show mid.start_index + rank0_from_range t.bits α β < mid.end_index
            omega
          · intro u hu
            rw [List.getLast?_concat] at hu
            have hu' := Option.some_inj.mp hu
            subst hu'
            rw [cntB_true]
            show rank1_from_range t.bits α β
              = mid.end_index - (mid.start_index + rank0_from_range t.bits α β)
            omega
    · rw [lookup_step_reduce_false t v t.len m mid hb] at hstep
      rw [← hα, ← hβ] at hstep
      by_cases h0 : mid.start_index = mid.end_index - rank1_from_range t.bits α β
      · rw [if_pos h0] at hstep
        exact absurd hstep (by simp)
      · rw [if_neg h0] at hstep
        have hst := (Option.some_inj.mp hstep).symm
        subst hst
        have hc1 : rank1_from_range t.bits α β ≤ mid.end_index - mid.start_index := by
          omega
        refine ⟨by simp [hslen], ?_, ?_, ?_, ?_⟩
        · show mid.start_index ≤ mid.end_index - rank1_from_range t.bits α β
          omega
        · show mid.end_index - rank1_from_range t.bits α β ≤ t.len
          omega
        · show WalkChain t.bits ((mid.slices ++ [(false, α, β)]).reverse)
            ((mid.end_index - rank1_from_range t.bits α β) - mid.start_index)
          rw [List.reverse_append]
          simp only [List.reverse_cons, List.reverse_nil, List.nil_append,
            List.cons_append, List.singleton_append]
          refine WalkChain.cons false α β _ mid.slices.reverse ?_ hab hbB ?_
          · rw [cntB_false]
            omega
          · have hwid : β - α = mid.end_index - mid.start_index := by omega
            rw [hwid]
            exact hchain
        · intro _
          refine ⟨?_, ?_⟩
          · show mid.start_index < mid.end_index - rank1_from_range t.bits α β
            omega
          · intro u hu
            rw [List.getLast?_concat] at hu
            have hu' := Option.some_inj.mp hu
            subst hu'
            rw [cntB_false]
            show rank0_from_range t.bits α β
              = (mid.end_index - rank1_from_range t.bits α β) - mid.start_index
            omega

lemma sel1_range_at (B P Q R : List Bool) (hB : B = P ++ (Q ++ R)) (r qf : ℕ)
    (h1 : 1 ≤ r) (hsel : select_bit true Q r = some qf) (hqf : qf < Q.length) :
    select1_from_range B r P.length (P.length + Q.length) = some (P.length + qf) := by
  subst hB
  unfold select1_from_range select1
  rw [if_neg (by omega)]
  have hrank : rank1 (P ++ (Q ++ R)) P.length = P.countP (fun x => x == true) := by
    rw [rank1_prefix_stop P (Q ++ R) P.length (Nat.le_refl _), rank1_take_all]
    exact countP_ext_mem _ _ _ (fun x _ => by cases x <;> rfl)
  rw [show r + rank1 (P ++ (Q ++ R)) P.length = P.countP (fun x => x == true) + r from by
    rw [hrank]; omega]
  rw [select_bit_app true P Q R r qf h1 hsel]
  show (if P.length + qf < P.length + Q.length then some (P.length + qf) else none)
      = some (P.length + qf)
  rw [if_pos (by omega)]

lemma sel0_range_at (B P Q R : List Bool) (hB : B = P ++ (Q ++ R)) (r qf : ℕ)
    (h1 : 1 ≤ r) (hsel : select_bit false Q r = some qf) (hqf : qf < Q.length) :
    select0_from_range B r P.length (P.length + Q.length) = some (P.length + qf) := by
  subst hB
  unfold select0_from_range select0
  rw [if_neg (by omega)]
  have hrank : rank0 (P ++ (Q ++ R)) P.length = P.countP (fun x => x == false) := by
    have hr1 : rank1 (P ++ (Q ++ R)) P.length = P.countP (fun b => b) := by
      rw [rank1_prefix_stop P (Q ++ R) P.length (Nat.le_refl _), rank1_take_all]
    have hnot := countP_not_add P
    have hext : P.countP (fun x => x == false) = P.countP (fun b => !b) :=
      countP_ext_mem _ _ _ (fun x _ => by cases x <;> rfl)
    unfold rank0
    omega
  rw [show r + rank0 (P ++ (Q ++ R)) P.length = P.countP (fun x => x == false) + r from by
    rw [hrank]; omega]
  rw [select_bit_app false P Q R r qf h1 hsel]
  show (if P.length + qf < P.length + Q.length then some (P.length + qf) else none)
      = some (P.length + qf)
  rw [if_pos (by omega)]

lemma half_pred_upper (A K P : ℕ) (hP : P = K + K) (x : ℕ) :
    (decide (A + K ≤ x) && decide (A ≤ x ∧ x < A + P))
      = decide (A + K ≤ x ∧ x < A + K + K) := by
  by_cases h1 : A + K ≤ x <;> by_cases h2 : x < A + P <;>
    simp [h1, h2] <;> omega

lemma half_pred_lower (A K P : ℕ) (hP : P = K + K) (x : ℕ) :
    (!decide (A + K ≤ x) && decide (A ≤ x ∧ x < A + P))
      = decide (A ≤ x ∧ x < A + K) := by
  by_cases h1 : A + K ≤ x <;> by_cases h2 : A ≤ x <;> by_cases h3 : x < A + P <;>
    simp [h1, h2, h3] <;> omega

lemma beq_nat_window (x v : ℕ) : (x == v) = decide (v ≤ x ∧ x < v + 1) := by
  by_cases h : x = v
  · subst h
    simp
  · have hb : (x == v) = false := beq_eq_false_iff_ne.mpr h
    rw [hb]
    have : ¬(v ≤ x ∧ x < v + 1) := by omega
    simp [this]

lemma countP_range_getD (S : List ℕ) (p : ℕ → Bool) :
    ∀ q, q ≤ S.length →
      (List.range q).countP (fun i => p (S.getD i 0)) = (S.take q).countP p := by
  intro q
  induction q with
  | zero => intro _; simp
  | succ m ih =>
    intro hm
    rw [List.range_succ, List.countP_append]
    have hms : m < S.length := by omega
    rw [List.take_succ, List.countP_append]
    rw [ih (by omega)]
    congr 1
    simp [List.countP_cons, List.getElem?_eq_getElem hms, List.getD]

/-- One reverse `entry` step on a built tree turns the occurrence rank of
a symbol position inside `v`'s layer-`(j+1)` alphabet interval into (one
plus) its occurrence rank inside the layer-`j` interval. -/
lemma entry_step_built (S : List ℕ) (w v j : ℕ) (hw : w ≤ 63) (hj : j < w)
    (hv : v < 2 ^ w) (hS : ∀ x ∈ S, x < 2 ^ w)
    (sl : WaveletSlice) (hbits : sl.tree.bits = build_wavelet_tree S w)
    (r q sq : ℕ) (h1 : 1 ≤ r) (hq : S[q]? = some sq)
    (hin : (decide (2 ^ (w - (j + 1)) * (v / 2 ^ (w - (j + 1))) ≤ sq ∧
      sq < 2 ^ (w - (j + 1)) * (v / 2 ^ (w - (j + 1))) + 2 ^ (w - (j + 1)))) = true)
    (hcount : (S.take q).countP (fun x =>
      decide (2 ^ (w - (j + 1)) * (v / 2 ^ (w - (j + 1))) ≤ x ∧
        x < 2 ^ (w - (j + 1)) * (v / 2 ^ (w - (j + 1))) + 2 ^ (w - (j + 1)))) = r - 1) :
    sl.entry_step r (slice_at S w v j)
      = some ((S.take q).countP (fun x =>
          decide (2 ^ (w - j) * (v / 2 ^ (w - j)) ≤ x ∧
            x < 2 ^ (w - j) * (v / 2 ^ (w - j)) + 2 ^ (w - j))) + 1) := by
  have hfb : v / 2 ^ (w - j) < 2 ^ j := by
    have hpos : 0 < 2 ^ (w - j) := Nat.pos_pow_of_pos _ (by omega)
    rw [Nat.div_lt_iff_lt_mul hpos]
    calc v < 2 ^ w := hv
      _ = 2 ^ j * 2 ^ (w - j) := by rw [← pow_add]; congr 1; omega
  obtain ⟨pre, rest, hBdec, hpre⟩ := build_decomp S w j (v / 2 ^ (w - j)) hw hj hfb hS
  set k := w - (j + 1) with hk
  clear_value k
  have hwj : w - j = k + 1 := by omega
  rw [hwj]
  rw [hwj] at hBdec hpre
  have hsa : slice_at S w v j
      = (decide ((2 ^ (k + 1) * (v / 2 ^ (k + 1))
            + (2 ^ (k + 1) * (v / 2 ^ (k + 1)) + 2 ^ (k + 1))) / 2 ≤ v),
         j * S.length + cntLT S (2 ^ (k + 1) * (v / 2 ^ (k + 1))),
         j * S.length + cntLT S (2 ^ (k + 1) * (v / 2 ^ (k + 1)) + 2 ^ (k + 1))) := by
    unfold slice_at
    rw [hwj]
  rw [hsa]
  have hp2 : 2 ^ (k + 1) = 2 ^ k + 2 ^ k := by
    rw [pow_succ]
    omega
  have hmid : (2 ^ (k + 1) * (v / 2 ^ (k + 1))
      + (2 ^ (k + 1) * (v / 2 ^ (k + 1)) + 2 ^ (k + 1))) / 2
      = 2 ^ (k + 1) * (v / 2 ^ (k + 1)) + 2 ^ k := by
    omega
  have hend : 2 ^ (k + 1) * (v / 2 ^ (k + 1) + 1)
      = 2 ^ (k + 1) * (v / 2 ^ (k + 1)) + 2 ^ (k + 1) := by ring
  rw [hend] at hBdec
  have hsplitLT := cntLT_split S (2 ^ (k + 1) * (v / 2 ^ (k + 1)))
    (2 ^ (k + 1) * (v / 2 ^ (k + 1)) + 2 ^ (k + 1)) (Nat.le_add_right _ _)
  by_cases hb : 2 ^ (k + 1) * (v / 2 ^ (k + 1)) + 2 ^ k ≤ v
  · -- upper half: the recorded bit is 1
    have hup : 2 ^ k * (v / 2 ^ k) = 2 ^ (k + 1) * (v / 2 ^ (k + 1)) + 2 ^ k :=
      div_pow_step_up v k hb
    rw [hup] at hin hcount
    have hin' := of_decide_eq_true hin
    have hinP : decide (2 ^ (k + 1) * (v / 2 ^ (k + 1)) ≤ sq ∧
        sq < 2 ^ (k + 1) * (v / 2 ^ (k + 1)) + 2 ^ (k + 1)) = true :=
      decide_eq_true (by omega)
    have hTj := filter_getElem_of_count (fun x =>
      decide (2 ^ (k + 1) * (v / 2 ^ (k + 1)) ≤ x ∧
        x < 2 ^ (k + 1) * (v / 2 ^ (k + 1)) + 2 ^ (k + 1))) S q sq hq hinP
    have hqf_lt := count_take_lt_filter_length (fun x =>
      decide (2 ^ (k + 1) * (v / 2 ^ (k + 1)) ≤ x ∧
        x < 2 ^ (k + 1) * (v / 2 ^ (k + 1)) + 2 ^ (k + 1))) S q sq hq hinP
    have hfragget : (fragment_bits S (2 ^ (k + 1) * (v / 2 ^ (k + 1)))
        (2 ^ (k + 1) * (v / 2 ^ (k + 1)) + 2 ^ (k + 1)))[(S.take q).countP (fun x =>
          decide (2 ^ (k + 1) * (v / 2 ^ (k + 1)) ≤ x ∧
            x < 2 ^ (k + 1) * (v / 2 ^ (k + 1)) + 2 ^ (k + 1)))]? = some true := by
      rw [fragment_bits_eq_seg, List.getElem?_map]
      rw [show seg S (2 ^ (k + 1) * (v / 2 ^ (k + 1)))
          (2 ^ (k + 1) * (v / 2 ^ (k + 1)) + 2 ^ (k + 1))
        = S.filter (fun x => decide (2 ^ (k + 1) * (v / 2 ^ (k + 1)) ≤ x ∧
            x < 2 ^ (k + 1) * (v / 2 ^ (k + 1)) + 2 ^ (k + 1))) from rfl]
      rw [hTj]
      simp only [Option.map_some']
      congr 1
      rw [hmid]
      exact decide_eq_true (by omega)
    have hcnt_take : ((fragment_bits S (2 ^ (k + 1) * (v / 2 ^ (k + 1)))
        (2 ^ (k + 1) * (v / 2 ^ (k + 1)) + 2 ^ (k + 1))).take ((S.take q).countP (fun x =>
          decide (2 ^ (k + 1) * (v / 2 ^ (k + 1)) ≤ x ∧
            x < 2 ^ (k + 1) * (v / 2 ^ (k + 1)) + 2 ^ (k + 1))))).countP
          (fun x => x == true) = r - 1 := by
      rw [countP_ext_mem _ _ (fun x => x) (fun x _ => by cases x <;> rfl)]
      rw [fragment_take_count1]
      simp only [hmid]
      rw [show seg S (2 ^ (k + 1) * (v / 2 ^ (k + 1)))
          (2 ^ (k + 1) * (v / 2 ^ (k + 1)) + 2 ^ (k + 1))
        = S.filter (fun x => decide (2 ^ (k + 1) * (v / 2 ^ (k + 1)) ≤ x ∧
            x < 2 ^ (k + 1) * (v / 2 ^ (k + 1)) + 2 ^ (k + 1))) from rfl]
      rw [← filter_take_eq]
      rw [List.countP_filter]
      rw [countP_ext_mem _ _ _ (fun x _ =>
        half_pred_upper (2 ^ (k + 1) * (v / 2 ^ (k + 1))) (2 ^ k) (2 ^ (k + 1)) hp2 x)]
      exact hcount
    have hsel_frag : select_bit true (fragment_bits S (2 ^ (k + 1) * (v / 2 ^ (k + 1)))
        (2 ^ (k + 1) * (v / 2 ^ (k + 1)) + 2 ^ (k + 1))) r
        = some ((S.take q).countP (fun x =>
            decide (2 ^ (k + 1) * (v / 2 ^ (k + 1)) ≤ x ∧
              x < 2 ^ (k + 1) * (v / 2 ^ (k + 1)) + 2 ^ (k + 1)))) := by
      have h := select_bit_of_position true _ _ hfragget
      rw [hcnt_take] at h
      rw [show r - 1 + 1 = r from by omega] at h
      exact h
    have hqf_lt' : (S.take q).countP (fun x =>
        decide (2 ^ (k + 1) * (v / 2 ^ (k + 1)) ≤ x ∧
          x < 2 ^ (k + 1) * (v / 2 ^ (k + 1)) + 2 ^ (k + 1)))
        < (fragment_bits S (2 ^ (k + 1) * (v / 2 ^ (k + 1)))
            (2 ^ (k + 1) * (v / 2 ^ (k + 1)) + 2 ^ (k + 1))).length := by
      rw [fragment_bits_eq_seg, List.length_map]
      exact hqf_lt
    have hselB := sel1_range_at sl.tree.bits pre
      (fragment_bits S (2 ^ (k + 1) * (v / 2 ^ (k + 1)))
        (2 ^ (k + 1) * (v / 2 ^ (k + 1)) + 2 ^ (k + 1))) rest
      (by rw [hbits]; exact hBdec) r _ h1 hsel_frag hqf_lt'
    have hfraglen : (fragment_bits S (2 ^ (k + 1) * (v / 2 ^ (k + 1)))
        (2 ^ (k + 1) * (v / 2 ^ (k + 1)) + 2 ^ (k + 1))).length
        = cntIn S (2 ^ (k + 1) * (v / 2 ^ (k + 1)))
            (2 ^ (k + 1) * (v / 2 ^ (k + 1)) + 2 ^ (k + 1)) := by
      rw [fragment_bits_eq_seg, List.length_map, seg_length]
    rw [hpre] at hselB
    rw [show j * S.length + cntLT S (2 ^ (k + 1) * (v / 2 ^ (k + 1)))
        + (fragment_bits S (2 ^ (k + 1) * (v / 2 ^ (k + 1)))
            (2 ^ (k + 1) * (v / 2 ^ (k + 1)) + 2 ^ (k + 1))).length
        = j * S.length + cntLT S (2 ^ (k + 1) * (v / 2 ^ (k + 1)) + 2 ^ (k + 1)) from by
      rw [hfraglen]; omega] at hselB
    have hbv : decide ((2 ^ (k + 1) * (v / 2 ^ (k + 1))
        + (2 ^ (k + 1) * (v / 2 ^ (k + 1)) + 2 ^ (k + 1))) / 2 ≤ v) = true := by
      rw [hmid]
      exact decide_eq_true hb
    show (match (if (decide ((2 ^ (k + 1) * (v / 2 ^ (k + 1))
          + (2 ^ (k + 1) * (v / 2 ^ (k + 1)) + 2 ^ (k + 1))) / 2 ≤ v)) = true
        then select1_from_range sl.tree.bits r
          (j * S.length + cntLT S (2 ^ (k + 1) * (v / 2 ^ (k + 1))))
          (j * S.length + cntLT S (2 ^ (k + 1) * (v / 2 ^ (k + 1)) + 2 ^ (k + 1)))
        else select0_from_range sl.tree.bits r
          (j * S.length + cntLT S (2 ^ (k + 1) * (v / 2 ^ (k + 1))))
          (j * S.length + cntLT S (2 ^ (k + 1) * (v / 2 ^ (k + 1)) + 2 ^ (k + 1)))) with
      | none => none
      | some p => some (p - (j * S.length + cntLT S (2 ^ (k + 1) * (v / 2 ^ (k + 1)))) + 1))
      = some ((S.take q).countP (fun x =>
          decide (2 ^ (k + 1) * (v / 2 ^ (k + 1)) ≤ x ∧
            x < 2 ^ (k + 1) * (v / 2 ^ (k + 1)) + 2 ^ (k + 1))) + 1)
    rw [hbv, if_pos rfl, hselB]
    show some (j * S.length + cntLT S (2 ^ (k + 1) * (v / 2 ^ (k + 1)))
        + (S.take q).countP (fun x =>
            decide (2 ^ (k + 1) * (v / 2 ^ (k + 1)) ≤ x ∧
              x < 2 ^ (k + 1) * (v / 2 ^ (k + 1)) + 2 ^ (k + 1)))
        - (j * S.length + cntLT S (2 ^ (k + 1) * (v / 2 ^ (k + 1)))) + 1)
      = some ((S.take q).countP (fun x =>
          decide (2 ^ (k + 1) * (v / 2 ^ (k + 1)) ≤ x ∧
            x < 2 ^ (k + 1) * (v / 2 ^ (k + 1)) + 2 ^ (k + 1))) + 1)
    congr 1
    omega
  · -- lower half: the recorded bit is 0
    have hdown : 2 ^ k * (v / 2 ^ k) = 2 ^ (k + 1) * (v / 2 ^ (k + 1)) :=
      div_pow_step_down v k (by
        have hint := div_interval v (2 ^ (k + 1)) (Nat.pos_pow_of_pos _ (by omega))
        omega)
    rw [hdown] at hin hcount
    have hin' := of_decide_eq_true hin
    have hinP : decide (2 ^ (k + 1) * (v / 2 ^ (k + 1)) ≤ sq ∧
        sq < 2 ^ (k + 1) * (v / 2 ^ (k + 1)) + 2 ^ (k + 1)) = true :=
      decide_eq_true (by omega)
    have hTj := filter_getElem_of_count (fun x =>
      decide (2 ^ (k + 1) * (v / 2 ^ (k + 1)) ≤ x ∧
        x < 2 ^ (k + 1) * (v / 2 ^ (k + 1)) + 2 ^ (k + 1))) S q sq hq hinP
    have hqf_lt := count_take_lt_filter_length (fun x =>
      decide (2 ^ (k + 1) * (v / 2 ^ (k + 1)) ≤ x ∧
        x < 2 ^ (k + 1) * (v / 2 ^ (k + 1)) + 2 ^ (k + 1))) S q sq hq hinP
    have hfragget : (fragment_bits S (2 ^ (k + 1) * (v / 2 ^ (k + 1)))
        (2 ^ (k + 1) * (v / 2 ^ (k + 1)) + 2 ^ (k + 1)))[(S.take q).countP (fun x =>
          decide (2 ^ (k + 1) * (v / 2 ^ (k + 1)) ≤ x ∧
            x < 2 ^ (k + 1) * (v / 2 ^ (k + 1)) + 2 ^ (k + 1)))]? = some false := by
      rw [fragment_bits_eq_seg, List.getElem?_map]
      rw [show seg S (2 ^ (k + 1) * (v / 2 ^ (k + 1)))
          (2 ^ (k + 1) * (v / 2 ^ (k + 1)) + 2 ^ (k + 1))
        = S.filter (fun x => decide (2 ^ (k + 1) * (v / 2 ^ (k + 1)) ≤ x ∧
            x < 2 ^ (k + 1) * (v / 2 ^ (k + 1)) + 2 ^ (k + 1))) from rfl]
      rw [hTj]
      simp only [Option.map_some']
      congr 1
      rw [hmid]
      exact decide_eq_false (by omega)
    have hcnt_take : ((fragment_bits S (2 ^ (k + 1) * (v / 2 ^ (k + 1)))
        (2 ^ (k + 1) * (v / 2 ^ (k + 1)) + 2 ^ (k + 1))).take ((S.take q).countP (fun x =>
          decide (2 ^ (k + 1) * (v / 2 ^ (k + 1)) ≤ x ∧
            x < 2 ^ (k + 1) * (v / 2 ^ (k + 1)) + 2 ^ (k + 1))))).countP
          (fun x => x == false) = r - 1 := by
      rw [countP_ext_mem _ _ (fun x => !x) (fun x _ => by cases x <;> rfl)]
      rw [fragment_take_count0]
      simp only [hmid]
      rw [show seg S (2 ^ (k + 1) * (v / 2 ^ (k + 1)))
          (2 ^ (k + 1) * (v / 2 ^ (k + 1)) + 2 ^ (k + 1))
        = S.filter (fun x => decide (2 ^ (k + 1) * (v / 2 ^ (k + 1)) ≤ x ∧
            x < 2 ^ (k + 1) * (v / 2 ^ (k + 1)) + 2 ^ (k + 1))) from rfl]
      rw [← filter_take_eq]
      rw [List.countP_filter]
      rw [countP_ext_mem _ _ _ (fun x _ =>
        half_pred_lower (2 ^ (k + 1) * (v / 2 ^ (k + 1))) (2 ^ k) (2 ^ (k + 1)) hp2 x)]
      exact hcount
    have hsel_frag : select_bit false (fragment_bits S (2 ^ (k + 1) * (v / 2 ^ (k + 1)))
        (2 ^ (k + 1) * (v / 2 ^ (k + 1)) + 2 ^ (k + 1))) r
        = some ((S.take q).countP (fun x =>
            decide (2 ^ (k + 1) * (v / 2 ^ (k + 1)) ≤ x ∧
              x < 2 ^ (k + 1) * (v / 2 ^ (k + 1)) + 2 ^ (k + 1)))) := by
      have h := select_bit_of_position false _ _ hfragget
      rw [hcnt_take] at h
      rw [show r - 1 + 1 = r from by omega] at h
      exact h
    have hqf_lt' : (S.take q).countP (fun x =>
        decide (2 ^ (k + 1) * (v / 2 ^ (k + 1)) ≤ x ∧
          x < 2 ^ (k + 1) * (v / 2 ^ (k + 1)) + 2 ^ (k + 1)))
        < (fragment_bits S (2 ^ (k + 1) * (v / 2 ^ (k + 1)))
            (2 ^ (k + 1) * (v / 2 ^ (k + 1)) + 2 ^ (k + 1))).length := by
      rw [fragment_bits_eq_seg, List.length_map]
      exact hqf_lt
    have hselB := sel0_range_at sl.tree.bits pre
      (fragment_bits S (2 ^ (k + 1) * (v / 2 ^ (k + 1)))
        (2 ^ (k + 1) * (v / 2 ^ (k + 1)) + 2 ^ (k + 1))) rest
      (by rw [hbits]; exact hBdec) r _ h1 hsel_frag hqf_lt'
    have hfraglen : (fragment_bits S (2 ^ (k + 1) * (v / 2 ^ (k + 1)))
        (2 ^ (k + 1) * (v / 2 ^ (k + 1)) + 2 ^ (k + 1))).length
        = cntIn S (2 ^ (k + 1) * (v / 2 ^ (k + 1)))
            (2 ^ (k + 1) * (v / 2 ^ (k + 1)) + 2 ^ (k + 1)) := by
      rw [fragment_bits_eq_seg, List.length_map, seg_length]
    rw [hpre] at hselB
    rw [show j * S.length + cntLT S (2 ^ (k + 1) * (v / 2 ^ (k + 1)))
        + (fragment_bits S (2 ^ (k + 1) * (v / 2 ^ (k + 1)))
            (2 ^ (k + 1) * (v / 2 ^ (k + 1)) + 2 ^ (k + 1))).length
        = j * S.length + cntLT S (2 ^ (k + 1) * (v / 2 ^ (k + 1)) + 2 ^ (k + 1)) from by
      rw [hfraglen]; omega] at hselB
    have hbv : decide ((2 ^ (k + 1) * (v / 2 ^ (k + 1))
        + (2 ^ (k + 1) * (v / 2 ^ (k + 1)) + 2 ^ (k + 1))) / 2 ≤ v) = false := by
      rw [hmid]
      exact decide_eq_false hb
    show (match (if (decide ((2 ^ (k + 1) * (v / 2 ^ (k + 1))
          + (2 ^ (k + 1) * (v / 2 ^ (k + 1)) + 2 ^ (k + 1))) / 2 ≤ v)) = true
        then select1_from_range sl.tree.bits r
          (j * S.length + cntLT S (2 ^ (k + 1) * (v / 2 ^ (k + 1))))
          (j * S.length + cntLT S (2 ^ (k + 1) * (v / 2 ^ (k + 1)) + 2 ^ (k + 1)))
        else select0_from_range sl.tree.bits r
          (j * S.length + cntLT S (2 ^ (k + 1) * (v / 2 ^ (k + 1))))
          (j * S.length + cntLT S (2 ^ (k + 1) * (v / 2 ^ (k + 1)) + 2 ^ (k + 1)))) with
      | none => none
      | some p => some (p - (j * S.length + cntLT S (2 ^ (k + 1) * (v / 2 ^ (k + 1)))) + 1))
      = some ((S.take q).countP (fun x =>
          decide (2 ^ (k + 1) * (v / 2 ^ (k + 1)) ≤ x ∧
            x < 2 ^ (k + 1) * (v / 2 ^ (k + 1)) + 2 ^ (k + 1))) + 1)
    rw [hbv, if_neg Bool.false_ne_true, hselB]
    show some (j * S.length + cntLT S (2 ^ (k + 1) * (v / 2 ^ (k + 1)))
        + (S.take q).countP (fun x =>
            decide (2 ^ (k + 1) * (v / 2 ^ (k + 1)) ≤ x ∧
              x < 2 ^ (k + 1) * (v / 2 ^ (k + 1)) + 2 ^ (k + 1)))
        - (j * S.length + cntLT S (2 ^ (k + 1) * (v / 2 ^ (k + 1)))) + 1)
      = some ((S.take q).countP (fun x =>
          decide (2 ^ (k + 1) * (v / 2 ^ (k + 1)) ≤ x ∧
            x < 2 ^ (k + 1) * (v / 2 ^ (k + 1)) + 2 ^ (k + 1))) + 1)
    congr 1
    omega

lemma interval_nest (v k : ℕ) :
    2 ^ (k + 1) * (v / 2 ^ (k + 1)) ≤ 2 ^ k * (v / 2 ^ k) ∧
    2 ^ k * (v / 2 ^ k) + 2 ^ k ≤ 2 ^ (k + 1) * (v / 2 ^ (k + 1)) + 2 ^ (k + 1) := by
  have hp2 : 2 ^ (k + 1) = 2 ^ k + 2 ^ k := by
    rw [pow_succ]
    omega
  by_cases hb : 2 ^ (k + 1) * (v / 2 ^ (k + 1)) + 2 ^ k ≤ v
  · have h := div_pow_step_up v k hb
    refine ⟨?_, ?_⟩
    · rw [h]
      exact Nat.le_add_right _ _
    · rw [h, hp2]
      exact Nat.le_of_eq (Nat.add_assoc _ _ _)
  · have h := div_pow_step_down v k (by
      have hint := div_interval v (2 ^ (k + 1)) (Nat.pos_pow_of_pos _ (by omega))
      omega)
    refine ⟨?_, ?_⟩
    · exact Nat.le_of_eq h.symm
    · rw [h, hp2]
      exact Nat.add_le_add_left (Nat.le_add_right _ _) _

/-- The reverse `entry` walk over the first `j` recorded triples of a
built tree turns the occurrence rank of a position inside `v`'s layer-`j`
alphabet interval into one plus that position. -/
lemma entry_walk_built (S : List ℕ) (w v : ℕ) (hw : w ≤ 63)
    (hv : v < 2 ^ w) (hS : ∀ x ∈ S, x < 2 ^ w)
    (sl : WaveletSlice) (hbits : sl.tree.bits = build_wavelet_tree S w) :
    ∀ j, j ≤ w → ∀ r q sq, 1 ≤ r → S[q]? = some sq →
      (decide (2 ^ (w - j) * (v / 2 ^ (w - j)) ≤ sq ∧
        sq < 2 ^ (w - j) * (v / 2 ^ (w - j)) + 2 ^ (w - j))) = true →
      (S.take q).countP (fun x => decide (2 ^ (w - j) * (v / 2 ^ (w - j)) ≤ x ∧
        x < 2 ^ (w - j) * (v / 2 ^ (w - j)) + 2 ^ (w - j))) = r - 1 →
      ((List.range j).map (slice_at S w v)).reverse.foldlM sl.entry_step r
        = some (q + 1) := by
  intro j
  induction j with
  | zero =>
    intro _ r q sq h1 hq hin hcount
    simp only [List.range_zero, List.map_nil, List.reverse_nil, List.foldlM_nil]
    have hq_lt : q < S.length := by
      rw [List.getElem?_eq_some] at hq
      exact hq.1
    have hdiv0 : v / 2 ^ w = 0 := Nat.div_eq_of_lt hv
    simp only [Nat.sub_zero, hdiv0, Nat.mul_zero, Nat.zero_add] at hcount
    have hcq : (S.take q).countP (fun x => decide (0 ≤ x ∧ x < 2 ^ w)) = q := by
      have hall : ∀ x ∈ S.take q, (fun x => decide (0 ≤ x ∧ x < 2 ^ w)) x = true :=
        fun x hx => decide_eq_true ⟨Nat.zero_le _, hS x (List.mem_of_mem_take hx)⟩
      calc (S.take q).countP (fun x => decide (0 ≤ x ∧ x < 2 ^ w))
          = (S.take q).length := List.countP_eq_length.mpr hall
        _ = q := by rw [List.length_take]; omega
    rw [hcq] at hcount
    show some r = some (q + 1)
    congr 1
    omega
  | succ m ih =>
    intro hm r q sq h1 hq hin hcount
    rw [List.range_succ, List.map_append, List.reverse_append]
    simp only [List.map_cons, List.map_nil, List.reverse_cons, List.reverse_nil,
      List.nil_append, List.cons_append, List.singleton_append]
    rw [List.foldlM_cons]
    have hstep := entry_step_built S w v m hw (by omega) hv hS sl hbits r q sq h1 hq
      hin hcount
    rw [hstep]
    have hwm : w - m = (w - (m + 1)) + 1 := by omega
    have hnest := interval_nest v (w - (m + 1))
    have hin' := of_decide_eq_true hin
    have hin_m : decide (2 ^ (w - m) * (v / 2 ^ (w - m)) ≤ sq ∧
        sq < 2 ^ (w - m) * (v / 2 ^ (w - m)) + 2 ^ (w - m)) = true := by
      rw [hwm]
      exact decide_eq_true (by omega)
    have hrest := ih (by omega) ((S.take q).countP (fun x =>
        decide (2 ^ (w - m) * (v / 2 ^ (w - m)) ≤ x ∧
          x < 2 ^ (w - m) * (v / 2 ^ (w - m)) + 2 ^ (w - m))) + 1) q sq
      (by omega) hq hin_m (by omega)
    simpa using hrest

/-- The `len` of the slice `lookup v` returns on a built tree is exactly
the occurrence count of `v` in the source. -/
lemma len_built_eq (S : List ℕ) (w v : ℕ) (hw1 : 1 ≤ w) (hw : w ≤ 63)
    (hv : v < 2 ^ w) (hvS : v ∈ S) (hS : ∀ x ∈ S, x < 2 ^ w) :
    (WaveletSlice.mk v (WaveletTree.mk (build_wavelet_tree S w) w)
        ((List.range w).map (slice_at S w v))).len = some (cntIn S v (v + 1)) := by
  have hdvd : (WaveletTree.mk (build_wavelet_tree S w) w).bits.length
      % (WaveletTree.mk (build_wavelet_tree S w) w).num_layers = 0 := by
    show (build_wavelet_tree S w).length % w = 0
    rw [build_length S w hw hS]
    exact Nat.mul_mod_right _ _
  have hloop : (List.range (WaveletTree.mk (build_wavelet_tree S w) w).num_layers).foldlM
      (fun st j => (WaveletTree.mk (build_wavelet_tree S w) w).lookup_step v
        (WaveletTree.mk (build_wavelet_tree S w) w).len j st)
      { alphabet_start := 0,
        alphabet_end := pow2u64 (WaveletTree.mk (build_wavelet_tree S w) w).num_layers,
        start_index := 0, end_index := (WaveletTree.mk (build_wavelet_tree S w) w).len,
        slices := [] } = some (lookup_state_at S w v w) := by
    show (List.range w).foldlM
      (fun st j => (WaveletTree.mk (build_wavelet_tree S w) w).lookup_step v
        (WaveletTree.mk (build_wavelet_tree S w) w).len j st)
      { alphabet_start := 0, alphabet_end := pow2u64 w, start_index := 0,
        end_index := (WaveletTree.mk (build_wavelet_tree S w) w).len,
        slices := [] } = some (lookup_state_at S w v w)
    rw [built_tree_len S w hw1 hw hS]
    rw [lookup_init_eq S w v hw hv hS]
    exact lookup_loop_built S w v hw hv hvS hS w (Nat.le_refl w)
  obtain ⟨hslen, hse, hetop, hchain, hlast⟩ :=
    lookup_loop_general (WaveletTree.mk (build_wavelet_tree S w) w) v hdvd
      (by show w ≠ 0; omega) w (Nat.le_refl _) (lookup_state_at S w v w) hloop
  obtain ⟨-, hlastEq⟩ := hlast (by omega)
  have hgl_gen : ∀ (g : ℕ → Bool × ℕ × ℕ) (m : ℕ),
      ((List.range (m + 1)).map g).getLast? = some (g m) := by
    intro g m
    rw [List.range_succ, List.map_append]
    simp [List.getLast?_concat]
  have hw' : w = (w - 1) + 1 := by omega
  rcases hu : slice_at S w v (w - 1) with ⟨b, α, β⟩
  have hgl : ((List.range w).map (slice_at S w v)).getLast? = some (b, α, β) := by
    calc ((List.range w).map (slice_at S w v)).getLast?
        = ((List.range ((w - 1) + 1)).map (slice_at S w v)).getLast? := by rw [← hw']
      _ = some (slice_at S w v (w - 1)) := hgl_gen _ _
      _ = some (b, α, β) := by rw [hu]
  have hlen1 : (WaveletSlice.mk v (WaveletTree.mk (build_wavelet_tree S w) w)
      ((List.range w).map (slice_at S w v))).len
      = some (cntB (build_wavelet_tree S w) (b, α, β)) := by
    simp only [WaveletSlice.len, hgl]
    rfl
  have hcnt := hlastEq (b, α, β) hgl
  have hwidth : (lookup_state_at S w v w).end_index - (lookup_state_at S w v w).start_index
      = cntIn S v (v + 1) := by
    show cntLT S (2 ^ (w - w) * (v / 2 ^ (w - w)) + 2 ^ (w - w))
        - cntLT S (2 ^ (w - w) * (v / 2 ^ (w - w))) = cntIn S v (v + 1)
    rw [show w - w = 0 from by omega]
    simp only [pow_zero, Nat.one_mul, Nat.div_one]
    have := cntLT_split S v (v + 1) (by omega)
    omega
  rw [hlen1]
  rw [show cntB (build_wavelet_tree S w) (b, α, β)
      = cntB (WaveletTree.mk (build_wavelet_tree S w) w).bits (b, α, β) from rfl]
  rw [hcnt, hwidth]

/-- `entry k` on the slice `lookup v` returns on a built tree yields the
`k`-th position of `v` in the source (positions in increasing order). -/
lemma entry_built_eq (S : List ℕ) (w v : ℕ) (hw1 : 1 ≤ w) (hw : w ≤ 63)
    (hv : v < 2 ^ w) (hvS : v ∈ S) (hS : ∀ x ∈ S, x < 2 ^ w) (kk : ℕ)
    (hk : kk < cntIn S v (v + 1)) :
    (WaveletSlice.mk v (WaveletTree.mk (build_wavelet_tree S w) w)
        ((List.range w).map (slice_at S w v))).entry kk
      = ((List.range S.length).filter (fun i =>
          decide (v ≤ S.getD i 0 ∧ S.getD i 0 < v + 1)))[kk]? := by
  have hLlen : ((List.range S.length).filter (fun i =>
      decide (v ≤ S.getD i 0 ∧ S.getD i 0 < v + 1))).length = cntIn S v (v + 1) := by
    have hb := countP_range_getD S (fun x => decide (v ≤ x ∧ x < v + 1)) S.length
      (Nat.le_refl _)
    rw [List.take_length] at hb
    rw [← List.countP_eq_length_filter, hb]
    rfl
  obtain ⟨qq, hqq⟩ : ∃ u, ((List.range S.length).filter (fun i =>
      decide (v ≤ S.getD i 0 ∧ S.getD i 0 < v + 1)))[kk]? = some u :=
    ⟨_, List.getElem?_eq_getElem (by rw [hLlen]; exact hk)⟩
  obtain ⟨qpos, hqlt, hqget, hqpred, hqcount⟩ := filter_getElem_inv _ _ kk _ hqq
  have hqpos_lt : qpos < S.length := by simpa using hqlt
  have hqq_eq : qq = qpos := by
    rw [List.getElem?_range hqpos_lt] at hqget
    exact (Option.some_inj.mp hqget).symm
  rw [hqq_eq] at hqq hqpred
  have hsq : S[qpos]? = some (S.getD qpos 0) := getD_getElem? S qpos hqpos_lt
  have htr : (List.range S.length).take qpos = List.range qpos := by
    rw [List.take_range]
    congr 1
    omega
  have hbridge : (List.range qpos).countP (fun i =>
      decide (v ≤ S.getD i 0 ∧ S.getD i 0 < v + 1))
      = (S.take qpos).countP (fun x => decide (v ≤ x ∧ x < v + 1)) :=
    countP_range_getD S (fun x => decide (v ≤ x ∧ x < v + 1)) qpos (by omega)
  have hin_top : decide (2 ^ (w - w) * (v / 2 ^ (w - w)) ≤ S.getD qpos 0 ∧
      S.getD qpos 0 < 2 ^ (w - w) * (v / 2 ^ (w - w)) + 2 ^ (w - w)) = true := by
    rw [show w - w = 0 from by omega]
    simp only [pow_zero, Nat.one_mul, Nat.div_one]
    exact hqpred
  have hcount_top : (S.take qpos).countP (fun x =>
      decide (2 ^ (w - w) * (v / 2 ^ (w - w)) ≤ x ∧
        x < 2 ^ (w - w) * (v / 2 ^ (w - w)) + 2 ^ (w - w))) = (kk + 1) - 1 := by
    rw [show w - w = 0 from by omega]
    simp only [pow_zero, Nat.one_mul, Nat.div_one]
    rw [← hbridge, ← htr, hqcount]
    omega
  have hwalk := entry_walk_built S w v hw hv hS
    (WaveletSlice.mk v (WaveletTree.mk (build_wavelet_tree S w) w)
      ((List.range w).map (slice_at S w v))) rfl w (Nat.le_refl w) (kk + 1) qpos
    (S.getD qpos 0) (by omega) hsq hin_top hcount_top
  simp only [WaveletSlice.entry, len_built_eq S w v hw1 hw hv hvS hS]
  rw [if_neg (by omega)]
  rw [hwalk]
  rw [hqq]
  show some (qpos + 1 - 1) = some qpos
  congr 1

lemma from_parts_ok_of (bits : List Bool) (nl : ℕ) (h0 : nl ≠ 0)
    (h1 : bits.length % nl = 0) :
    WaveletTree.from_parts bits nl = .ok ⟨bits, nl⟩ := by
  unfold WaveletTree.from_parts
  rw [if_neg h0, if_neg (fun hc => hc h1)]

/-- C2 (amended: width restricted to 1..63 — at the format-permitted width
64 the `2_usize.pow(64)` overflow empties the built buffer and `lookup`
returns the absent result even for symbols present in `S`, see the
counterexample): on a tree built from `S` with width `w ∈ [1, 63]`, for
every in-alphabet symbol `v` occurring in `S`, `lookup v` returns a slice
whose `len` is the occurrence count of `v` in `S` and whose `iter` yields
exactly the increasing list of positions `i` with `S[i] = v`. -/
theorem wavelet_lookup_present_correct (S : List ℕ) (w v : ℕ) (hw1 : 1 ≤ w)
    (hw : w ≤ 63) (hv : v < 2 ^ w) (hvS : v ∈ S) (hS : ∀ x ∈ S, x < 2 ^ w)
    (t : WaveletTree)
    (hT : WaveletTree.from_parts (build_wavelet_tree S w) w = .ok t) :
    ∃ sl, t.lookup v = some sl ∧
      sl.len = some (S.countP (fun x => x == v)) ∧
      sl.iter = some ((List.range S.length).filter (fun i => S.getD i 0 == v)) := by
  obtain ⟨ht, -, -⟩ := from_parts_ok_inv _ _ _ hT
  subst ht
  have hcount_eq : S.countP (fun x => x == v) = cntIn S v (v + 1) := by
    calc S.countP (fun x => x == v)
        = S.countP (fun x => decide (v ≤ x ∧ x < v + 1)) :=
          countP_ext_mem S _ _ (fun x _ => beq_nat_window x v)
      _ = cntIn S v (v + 1) := rfl
  have hfilter_eq : (List.range S.length).filter (fun i => S.getD i 0 == v)
      = (List.range S.length).filter (fun i =>
          decide (v ≤ S.getD i 0 ∧ S.getD i 0 < v + 1)) :=
    List.filter_congr (fun i _ => beq_nat_window (S.getD i 0) v)
  have hLlen : ((List.range S.length).filter (fun i =>
      decide (v ≤ S.getD i 0 ∧ S.getD i 0 < v + 1))).length = cntIn S v (v + 1) := by
    have hb := countP_range_getD S (fun x => decide (v ≤ x ∧ x < v + 1)) S.length
      (Nat.le_refl _)
    rw [List.take_length] at hb
    rw [← List.countP_eq_length_filter, hb]
    rfl
  refine ⟨_, lookup_built S w v hw1 hw hv hvS hS, ?_, ?_⟩
  · rw [len_built_eq S w v hw1 hw hv hvS hS, hcount_eq]
  · simp only [WaveletSlice.iter, len_built_eq S w v hw1 hw hv hvS hS]
    rw [hfilter_eq]
    rw [show cntIn S v (v + 1) = ((List.range S.length).filter (fun i =>
        decide (v ≤ S.getD i 0 ∧ S.getD i 0 < v + 1))).length from hLlen.symm]
    apply mapM_range_eq
    intro kk hkk
    exact entry_built_eq S w v hw1 hw hv hvS hS kk (by rw [← hLlen]; exact hkk)

/-- Witness for C2 at a concrete input: the repository's own `lookup` test
vector (width 4); looking up symbol 8 yields the slice of its five
occurrences at positions 0, 2, 3, 8, 16. -/
theorem wavelet_lookup_present_correct_witness :
    ∃ sl, (WaveletTree.mk (build_wavelet_tree
        [8, 3, 8, 8, 1, 2, 3, 2, 8, 9, 3, 3, 6, 7, 0, 4, 8, 7, 3] 4) 4).lookup 8
        = some sl ∧
      sl.len = some ([8, 3, 8, 8, 1, 2, 3, 2, 8, 9, 3, 3, 6, 7, 0, 4, 8, 7, 3].countP
        (fun x => x == 8)) ∧
      sl.iter = some ((List.range
          [8, 3, 8, 8, 1, 2, 3, 2, 8, 9, 3, 3, 6, 7, 0, 4, 8, 7, 3].length).filter
        (fun i => [8, 3, 8, 8, 1, 2, 3, 2, 8, 9, 3, 3, 6, 7, 0, 4, 8, 7, 3].getD i 0 == 8)) :=
  wavelet_lookup_present_correct [8, 3, 8, 8, 1, 2, 3, 2, 8, 9, 3, 3, 6, 7, 0, 4, 8, 7, 3]
    4 8 (by omega) (by omega) (by norm_num) (by decide) (by decide) _
    (from_parts_ok_of _ _ (by omega)
      (by rw [build_length _ 4 (by omega) (by decide)]; exact Nat.mul_mod_right _ _))

/-- Counterexample to C2 as stated: width 64 is permitted by the log-array
format, but the built buffer is empty (the `usize` power `2^64` wraps to
0), `from_parts` still succeeds, and `lookup 0` returns the absent result
even though 0 occurs in the source. -/
theorem wavelet_lookup_present_width64_cex :
    (0 : ℕ) ∈ [0] ∧
    WaveletTree.from_parts (build_wavelet_tree [0] 64) 64 = .ok ⟨[], 64⟩ ∧
    (WaveletTree.mk [] 64).lookup 0 = none := by
  refine ⟨by simp, ?_, by decide⟩
  rw [build_eq_nil_of_ge64 [0] 64 (Nat.le_refl _)]
  rfl
